import Mathlib

/-!
# Verification of the conversation-search core

Shallow embedding of the Python sources of `cc-conversation-search`
(`src/indexer.py`, `src/summarization.py`, `src/search.py`,
`src/claude_finder/core/watcher.py`) together with proofs of the spec
claims about them.

Conventions used throughout:
* Python strings become `String`; `len` is `String.length`, `s[:n]` is
  `String.take`, `str.strip()` is `String.trim`, `in` (substring test)
  is list-infix on the character data.
* Python `dict.get(k)` of a possibly-absent / possibly-`None` field
  becomes `Option`; Python truthiness of an optional string (`None` and
  `""` are falsy) is `optTruthy` / `optFalsy`.
* SQLite tables become Lean lists of row structures; `DELETE ... WHERE`
  is `List.filter`, `INSERT` is list append.
-/

set_option maxRecDepth 16000

namespace CCFinder

/-- Python `pat in s` (substring containment). -/
def strContains (s pat : String) : Bool :=
  decide (pat.toList <:+: s.toList)

/-- Python `s.startswith(pre)`. -/
def pyStartsWith (s pre : String) : Bool :=
  decide (pre.toList <+: s.toList)

/-- Python `s.endswith(suf)`. -/
def pyEndsWith (s suf : String) : Bool :=
  decide (suf.toList <:+ s.toList)

/-- Python `s.strip()`: drop leading and trailing whitespace. -/
def pyStrip (s : String) : String :=
  String.mk (((s.toList.dropWhile Char.isWhitespace).reverse.dropWhile
    Char.isWhitespace).reverse)

/-- Python `s.lower()` (the contents compared here are ASCII). -/
def pyLower (s : String) : String :=
  String.mk (s.toList.map Char.toLower)

/-- Python `s[:n]`. -/
def pyTake (s : String) (n : Nat) : String :=
  String.mk (s.toList.take n)

/-- Auxiliary for `pySplitWs`: accumulate the current word (reversed). -/
def pySplitWsAux : List Char → List Char → List String
  | acc, [] => if acc.isEmpty then [] else [String.mk acc.reverse]
  | acc, c :: cs =>
    if c.isWhitespace then
      if acc.isEmpty then pySplitWsAux [] cs
      else String.mk acc.reverse :: pySplitWsAux [] cs
    else pySplitWsAux (c :: acc) cs

/-- Python `s.split()`: split on whitespace runs, dropping empty pieces. -/
def pySplitWs (s : String) : List String :=
  pySplitWsAux [] s.toList

/-- The characters after the first occurrence of `c`, if any. -/
def afterChar (c : Char) : List Char → Option (List Char)
  | [] => none
  | x :: xs => if x = c then some xs else afterChar c xs

/-- Python `s.split(']', 1)[-1]`: the part after the first `]`, or the whole
string if there is none. -/
def afterFirstRBracket (s : String) : String :=
  match afterChar ']' s.toList with
  | some rest => String.mk rest
  | none => s

/-- Python truthiness of an optional string: `None` and `""` are falsy. -/
def optFalsy : Option String → Bool
  | none => true
  | some s => s.isEmpty

/-- Normalize an optional string by Python truthiness: a falsy value
(`None` or `""`) becomes `none`. -/
def optTruthy : Option String → Option String
  | none => none
  | some s => if s.isEmpty then none else some s

/-- The apostrophe character (U+0027). -/
def apos : Char := Char.ofNat 39

/-! ## Summarization gate (src/src/summarization.py) -/

/-- A message dict as consumed by the summarization gate: `content`,
`message_type`, and an optional `summary` key. -/
structure SMsg where
  content : String
  message_type : String
  summary : Option String := none
  deriving DecidableEq, Repr

/-- `noise_patterns` from `is_tool_noise` (summarization.py lines 56-63). -/
def noise_patterns : List String :=
  ["[Tool: Read]", "[Tool: Glob]", "[Tool: LS]", "[Tool: Grep]",
   "[Tool result]", "[Request interrupted]"]

/-- The filler phrases checked for short assistant messages
(summarization.py lines 74-77).  The fourth phrase contains an
apostrophe, assembled from `apos`. -/
def filler_phrases : List String :=
  ["let me read", "let me check", "let me search",
   "i" ++ String.mk [apos] ++ "ll look at", "looking at", "checking"]

/-- `MessageSummarizer.is_tool_noise` (summarization.py lines 23-80). -/
def is_tool_noise (m : SMsg) : Bool :=
  let content := m.content
  if pyStartsWith (pyStrip content) "[Tool" then true
  else if pyStrip content == "[Tool result]" then true
  else if strContains content "[Request interrupted" then true
  else if (pyStrip content).length = 0 then true
  else if content.length < 50 then false
  else if noise_patterns.any (fun p => strContains content p) then
    -- text_after_tool = content.split(']', 1)[-1].strip()
    if (pyStrip (afterFirstRBracket content)).length > 100 then false else true
  else if m.message_type == "assistant" && decide (content.length < 150) &&
      filler_phrases.any (fun p => strContains (pyLower content) p) then true
  else false

/-- `MessageSummarizer.is_truncated_summary` (summarization.py lines 82-92).
Python `if not summary` is the empty-string test. -/
def is_truncated_summary (summary : String) (full_content : String) : Bool :=
  if summary.length = 0 then true
  else
    pyEndsWith summary "..." ||
    (decide (145 ≤ summary.length) && decide (summary.length ≤ 150) &&
      decide (summary.length < full_content.length)) ||
    pyStartsWith summary "[Tool" ||
    decide (summary.length < 20)

/-- `MessageSummarizer.needs_summarization` (summarization.py lines 94-123). -/
def needs_summarization (m : SMsg) : Bool × String :=
  let summary := m.summary.getD ""
  if is_tool_noise m then (false, "tool_noise")
  else if m.content.length < 50 then (false, "too_short")
  else if decide (summary.length ≠ 0) && !(is_truncated_summary summary m.content) then
    (false, "already_done")
  else (true, "needs_summary")

/-- The summary with a trailing ellipsis removed (its "non-ellipsis prefix"
in the words of the spec). -/
def stripEllipsis (s : String) : String :=
  if pyEndsWith s "..." then String.mk (s.toList.dropLast.dropLast.dropLast) else s

/-- The placeholder condition exactly as the spec sentence words it:
ends with an ellipsis; or length between 145 and 150 **and the full
content begins with the summary's non-ellipsis prefix**; or starts with
a tool marker tag; or shorter than 20 characters (which also covers the
empty summary). -/
def placeholder_spec (s c : String) : Prop :=
  pyEndsWith s "..." = true ∨
  (145 ≤ s.length ∧ s.length ≤ 150 ∧ pyStartsWith c (stripEllipsis s) = true) ∨
  pyStartsWith s "[Tool" = true ∨
  s.length < 20

instance (s c : String) : Decidable (placeholder_spec s c) := by
  unfold placeholder_spec; infer_instance

/-- The amended placeholder condition: the middle disjunct compares
lengths (full content strictly longer than the summary) rather than
testing a prefix relationship. -/
def placeholder_amended (s c : String) : Prop :=
  pyEndsWith s "..." = true ∨
  (145 ≤ s.length ∧ s.length ≤ 150 ∧ s.length < c.length) ∨
  pyStartsWith s "[Tool" = true ∨
  s.length < 20

/-- A 146-character summary that is not a prefix of the full content. -/
def sC3 : String := String.mk (List.replicate 146 'a')

/-- A 147-character full content unrelated to `sC3`. -/
def cC3 : String := String.mk (List.replicate 147 'b')

/-- C3 counterexample: the gate classifies a 146-character summary over a
147-character full content as a placeholder even though the full content
does **not** begin with the summary's non-ellipsis prefix — the code
compares lengths only, so the claim's characterization is wrong on this
input. -/
theorem c3_counterexample :
    is_truncated_summary sC3 cC3 = true ∧ ¬ placeholder_spec sC3 cC3 :=
  ⟨by decide, by decide⟩

/-- C3 (amended): the gate classifies `s` as a mechanically-truncated
placeholder iff `s` ends with an ellipsis; or `s` has length between 145
and 150 and the full content is strictly longer than `s`; or `s` starts
with a tool marker tag; or `s` is shorter than 20 characters (the empty
summary falling under the last test). -/
theorem c3_truncated_summary_gate (s c : String) :
    is_truncated_summary s c = true ↔ placeholder_amended s c := by
  unfold is_truncated_summary placeholder_amended
  by_cases h : s.length = 0
  · simp [h]
  · simp only [h, if_false, Bool.or_eq_true, Bool.and_eq_true,
      decide_eq_true_eq]
    tauto

/-- C7: for any message not classified as tool noise, content of length 49
classifies `too_short` while content of length 50 does not; and tool
noise is decided before the length check (a tool-noise message is
classified `tool_noise` whatever its length). -/
theorem c7_gate_boundary (m : SMsg) (h : is_tool_noise m = false) :
    (m.content.length = 49 → needs_summarization m = (false, "too_short")) ∧
    (m.content.length = 50 → (needs_summarization m).2 ≠ "too_short") ∧
    (∀ m2 : SMsg, is_tool_noise m2 = true →
      needs_summarization m2 = (false, "tool_noise")) := by
  refine ⟨?_, ?_, ?_⟩
  · intro h49
    unfold needs_summarization
    simp [h, h49]
  · intro h50
    unfold needs_summarization
    simp only [h, Bool.false_eq_true, if_false, h50]
    norm_num
    split <;> decide
  · intro m2 h2
    unfold needs_summarization
    simp [h2]

/-- A 49-character message that is not tool noise. -/
def mC7 : SMsg := { content := String.mk (List.replicate 49 'a'), message_type := "user" }

/-- Witness for C7 at a concrete 49-character message. -/
theorem c7_gate_boundary_witness :
    is_tool_noise mC7 = false ∧ needs_summarization mC7 = (false, "too_short") :=
  ⟨by decide, (c7_gate_boundary mC7 (by decide)).1 (by decide)⟩

/-! ## Query engine: search (src/src/search.py) -/

/-- Lexicographic comparison of strings by code point, modelling the
store-side text comparison used for `timestamp >= cutoff` and
`ORDER BY timestamp` (the store itself is an external collaborator,
spec §3; ISO-8601 timestamps compare chronologically this way). -/
def lexLe : List Char → List Char → Bool
  | [], _ => true
  | _ :: _, [] => false
  | a :: as, b :: bs =>
    if a.toNat < b.toNat then true
    else if b.toNat < a.toNat then false
    else lexLe as bs

/-- String comparison via `lexLe`. -/
def strLe (a b : String) : Bool := lexLe a.toList b.toList

/-- One row of the result set produced by the search query's SELECT
(messages joined with their conversation). -/
structure SearchRow where
  message_uuid : String
  session_id : String
  parent_uuid : Option String
  timestamp : String
  message_type : String
  project_path : String
  depth : Nat
  is_sidechain : Bool
  summary : String
  conversation_summary : Option String
  conversation_file : String
  deriving DecidableEq, Repr

/-- `ORDER BY m.timestamp DESC` as a relation between rows. -/
def tsDescRel (a b : SearchRow) : Prop := strLe b.timestamp a.timestamp = true

instance : DecidableRel tsDescRel := fun _ _ => instDecidableEqBool _ _

theorem lexLe_total (a b : List Char) : lexLe a b = true ∨ lexLe b a = true := by
  induction a generalizing b with
  | nil => left; rfl
  | cons x xs ih =>
    cases b with
    | nil => right; rfl
    | cons y ys =>
      rcases Nat.lt_trichotomy x.toNat y.toNat with h | h | h
      · left; simp [lexLe, h]
      · rcases ih ys with h2 | h2
        · left; simp [lexLe, h, h2]
        · right; simp [lexLe, h.symm, h2]
      · right; simp [lexLe, h]

theorem lexLe_trans {a b c : List Char} (h1 : lexLe a b = true)
    (h2 : lexLe b c = true) : lexLe a c = true := by
  induction a generalizing b c with
  | nil => rfl
  | cons x xs ih =>
    cases b with
    | nil => simp [lexLe] at h1
    | cons y ys =>
      cases c with
      | nil => simp [lexLe] at h2
      | cons z zs =>
        simp only [lexLe] at h1 h2 ⊢
        by_cases hxy : x.toNat < y.toNat
        · by_cases hyz : y.toNat < z.toNat
          · have hxz : x.toNat < z.toNat := Nat.lt_trans hxy hyz
            simp [hxz]
          · by_cases hzy : z.toNat < y.toNat
            · simp [hyz, hzy] at h2
            · have hxz : x.toNat < z.toNat := by omega
              simp [hxz]
        · by_cases hyx : y.toNat < x.toNat
          · simp [hxy, hyx] at h1
          · simp only [hxy, hyx, if_false] at h1
            by_cases hyz : y.toNat < z.toNat
            · have hxz : x.toNat < z.toNat := by omega
              simp [hxz]
            · by_cases hzy : z.toNat < y.toNat
              · simp [hyz, hzy] at h2
              · simp only [hyz, hzy, if_false] at h2
                have hxz1 : ¬ x.toNat < z.toNat := by omega
                have hxz2 : ¬ z.toNat < x.toNat := by omega
                simp only [hxz1, hxz2, if_false]
                exact ih h1 h2

instance : IsTotal SearchRow tsDescRel :=
  ⟨fun a b => (lexLe_total b.timestamp.toList a.timestamp.toList).elim .inl .inr⟩

instance : IsTrans SearchRow tsDescRel :=
  ⟨fun _ _ _ h1 h2 => lexLe_trans h2 h1⟩

/-- The FTS operator tokens whose presence makes `search_conversations`
pass the query through unmodified (search.py line 54). -/
def fts_ops : List String := [" AND ", " OR ", " NOT ", "\""]

/-- Whether the raw query contains one of the FTS operator tokens. -/
def has_fts_ops (q : String) : Bool := fts_ops.any (fun op => strContains q op)

/-- The `fts_query` built by `search_conversations` (search.py lines 53-62):
operator-containing queries pass through verbatim; a single word gets a
trailing wildcard; several words each get a wildcard, joined by spaces. -/
def build_fts_query (q : String) : String :=
  if has_fts_ops q then q
  else
    let terms := pySplitWs q
    if terms.length = 1 then terms.headD "" ++ "*"
    else " ".intercalate (terms.map (fun t => t ++ "*"))

/-- Modelled from the spec: the embedded store's FTS engine is an external
collaborator (spec §3, §6).  Tokens of a summary under an
FTS5-unicode61-style tokenizer: maximal alphanumeric runs, case-folded. -/
def fts_tokens (s : String) : List String :=
  pySplitWsAux [] ((pyLower s).toList.map (fun ch => if ch.isAlphanum then ch else ' '))

/-- Modelled from the spec: one FTS query term matched against the token
list of a summary — a trailing `*` means prefix match, otherwise the
token must match exactly. -/
def fts_term_matches (summary term : String) : Bool :=
  if pyEndsWith term "*" then
    (fts_tokens summary).any (fun tok =>
      pyStartsWith tok (String.mk term.toList.dropLast))
  else (fts_tokens summary).any (fun tok => tok == pyLower term)

/-- Modelled from the spec: an operator-free FTS query (whitespace-
separated terms) matches a summary iff every term matches (implicit
AND). -/
def fts_matches (summary q : String) : Bool :=
  (pySplitWs q).all (fun t => fts_term_matches summary t)

/-- The row filter of the search SQL: FTS match on the summary, then the
optional recency cutoff (`timestamp >= cutoff`), then the optional
project-path equality filter. -/
def search_keep (ftsq : String) (cutoff : Option String) (proj : Option String)
    (r : SearchRow) : Bool :=
  fts_matches r.summary ftsq &&
  (match cutoff with | none => true | some c => strLe c r.timestamp) &&
  (match proj with | none => true | some p => r.project_path == p)

/-- `ConversationSearch.search_conversations` (search.py lines 29-103) over
a row set `rows`: build the FTS query, filter, order by timestamp
descending, truncate to `limit`.  `cutoff` stands for the ISO timestamp
`now - days_back` when a recency filter is applied (`none` when
`days_back` is falsy), and `proj` for the optional project filter. -/
def search_conversations (rows : List SearchRow) (query : String)
    (cutoff : Option String) (limit : Nat) (proj : Option String) :
    List SearchRow :=
  let ftsq := build_fts_query query
  let matched := rows.filter (search_keep ftsq cutoff proj)
  (List.insertionSort tsDescRel matched).take limit

/-- The query that defeats the rewrite: it contains the FTS operator
token `" AND "`. -/
def qC6 : String := "a AND b"

/-- C6 counterexample: a query containing an FTS operator token is passed
through verbatim, so the multi-word query `"a AND b"` is **not** turned
into a conjunction of per-word prefix matches as the claim demands. -/
theorem c6_counterexample :
    build_fts_query qC6 = "a AND b" ∧ build_fts_query qC6 ≠ "a* AND* b*" :=
  ⟨by decide, by decide⟩

/-- C6 (amended): queries containing an FTS operator token are passed to
the index verbatim; any other single-word query becomes a prefix match
and any other multi-word query a conjunction of per-word prefix matches;
matching is evaluated against the summary index only, the recency cutoff
and project filter are applied, and results come ordered by timestamp
descending, truncated to `limit` (with every qualifying row returned
unless the limit is hit). -/
theorem c6_search_pipeline (rows : List SearchRow) (q : String)
    (cutoff : Option String) (limit : Nat) (proj : Option String) :
    (has_fts_ops q = true → build_fts_query q = q) ∧
    (has_fts_ops q = false → ∀ w, pySplitWs q = [w] →
      build_fts_query q = w ++ "*") ∧
    (has_fts_ops q = false → 2 ≤ (pySplitWs q).length →
      build_fts_query q = " ".intercalate ((pySplitWs q).map (fun t => t ++ "*"))) ∧
    (∀ r ∈ search_conversations rows q cutoff limit proj,
      r ∈ rows ∧
      fts_matches r.summary (build_fts_query q) = true ∧
      (∀ c, cutoff = some c → strLe c r.timestamp = true) ∧
      (∀ p, proj = some p → r.project_path = p)) ∧
    List.Sorted tsDescRel (search_conversations rows q cutoff limit proj) ∧
    (search_conversations rows q cutoff limit proj).length ≤ limit ∧
    (∀ r ∈ rows, search_keep (build_fts_query q) cutoff proj r = true →
      r ∈ search_conversations rows q cutoff limit proj ∨
      (search_conversations rows q cutoff limit proj).length = limit) := by
  refine ⟨?_, ?_, ?_, ?_, ?_, ?_, ?_⟩
  · intro h; simp [build_fts_query, h]
  · intro h w hw; simp [build_fts_query, h, hw]
  · intro h hlen
    have hne : (pySplitWs q).length ≠ 1 := by omega
    simp [build_fts_query, h, hne]
  · intro r hr
    have hr2 : r ∈ List.insertionSort tsDescRel
        (rows.filter (search_keep (build_fts_query q) cutoff proj)) :=
      List.take_subset _ _ hr
    have hr3 : r ∈ rows.filter (search_keep (build_fts_query q) cutoff proj) :=
      ((List.perm_insertionSort tsDescRel _).mem_iff).mp hr2
    have hr4 := List.mem_filter.mp hr3
    rcases hr4 with ⟨hrow, hkeep⟩
    unfold search_keep at hkeep
    simp only [Bool.and_eq_true] at hkeep
    refine ⟨hrow, hkeep.1.1, ?_, ?_⟩
    · intro c hc; rw [hc] at hkeep; exact hkeep.1.2
    · intro p hp; rw [hp] at hkeep
      exact eq_of_beq hkeep.2
  · exact List.Pairwise.sublist (List.take_sublist _ _)
      (List.sorted_insertionSort tsDescRel _)
  · show ((List.insertionSort tsDescRel _).take limit).length ≤ limit
    rw [List.length_take]
    omega
  · intro r hrow hkeep
    have hr3 : r ∈ rows.filter (search_keep (build_fts_query q) cutoff proj) :=
      List.mem_filter.mpr ⟨hrow, hkeep⟩
    have hr2 : r ∈ List.insertionSort tsDescRel
        (rows.filter (search_keep (build_fts_query q) cutoff proj)) :=
      ((List.perm_insertionSort tsDescRel _).mem_iff).mpr hr3
    set sorted := List.insertionSort tsDescRel
        (rows.filter (search_keep (build_fts_query q) cutoff proj)) with hs
    by_cases hlen : sorted.length ≤ limit
    · left
      show r ∈ sorted.take limit
      rwa [List.take_of_length_le hlen]
    · right
      show (sorted.take limit).length = limit
      rw [List.length_take]
      omega

/-- The scenario row whose summary mentions the bug (spec §8). -/
def rA : SearchRow :=
  { message_uuid := "A", session_id := "S", parent_uuid := none,
    timestamp := "2025-01-01T10:00:00Z", message_type := "user",
    project_path := "p", depth := 0, is_sidechain := false,
    summary := "Fix the bug in parser", conversation_summary := none,
    conversation_file := "f" }

/-- The scenario reply row (spec §8). -/
def rB : SearchRow :=
  { message_uuid := "B", session_id := "S", parent_uuid := some "A",
    timestamp := "2025-01-01T10:01:00Z", message_type := "assistant",
    project_path := "p", depth := 1, is_sidechain := false,
    summary := "Fixed it by adjusting regex", conversation_summary := none,
    conversation_file := "f" }

/-- Rows for the C6 witness, echoing the spec's §8 scenario. -/
def rowsC6 : List SearchRow := [rA, rB]

/-- Witness for C6: searching `"bug"` over the scenario rows returns the
message whose summary contains the word, and it satisfies the matched /
filtered characterization of the theorem. -/
theorem c6_search_pipeline_witness :
    (rA ∈ search_conversations rowsC6 "bug" none 20 none) ∧
    (rA ∈ rowsC6 ∧
      fts_matches rA.summary (build_fts_query "bug") = true ∧
      (∀ c, (none : Option String) = some c → strLe c rA.timestamp = true) ∧
      (∀ p, (none : Option String) = some p → rA.project_path = p)) :=
  ⟨by decide,
   (c6_search_pipeline rowsC6 "bug" none 20 none).2.2.2.1 rA (by decide)⟩

/-! ## Indexing store (src/src/indexer.py) -/

/-- A parsed message record, as produced by
`ConversationIndexer.parse_conversation_file` (indexer.py lines 164-172).
`data.get(...)` fields that may be absent or `None` are `Option`s. -/
structure PMsg where
  uuid : String
  parent_uuid : Option String := none
  is_sidechain : Bool := false
  timestamp : Option String := none
  message_type : String := "user"
  content : String := ""
  session_id : Option String := none
  deriving DecidableEq, Repr

/-- The conversation-metadata record from a summary header line:
`summary` and `leafUuid` keys may be absent. -/
structure ConvMeta where
  summary : Option String := none
  leafUuid : Option String := none
  deriving DecidableEq, Repr

/-- A row of the `messages` table as inserted by `index_conversation`
(indexer.py lines 322-340).  `is_summarized`/`summary_method` are not in
the INSERT column list; their values here are the schema defaults
(modelled from the spec §3, §4.3 — `schema.sql` is not among the given
sources): not yet summarized, no method recorded. -/
structure MsgRow where
  message_uuid : String
  session_id : String
  parent_uuid : Option String
  is_sidechain : Bool
  depth : Nat
  timestamp : Option String
  message_type : String
  project_path : String
  conversation_file : String
  summary : String
  full_content : String
  is_summarized : Bool := false
  summary_method : Option String := none
  deriving DecidableEq, Repr

/-- A row of the `conversations` table (indexer.py lines 297-313). -/
structure ConvRow where
  session_id : String
  project_path : String
  conversation_file : String
  root_message_uuid : String
  leaf_message_uuid : Option String
  conversation_summary : Option String
  first_message_at : Option String
  last_message_at : Option String
  message_count : Nat
  deriving DecidableEq, Repr

/-- The two tables the indexer writes. -/
structure DBState where
  conversations : List ConvRow
  messages : List MsgRow
  deriving DecidableEq, Repr

/-- Python dict assignment log: the value of `u` is the last one
assigned. -/
def dget (depths : List (String × Nat)) (u : String) : Option Nat :=
  (depths.reverse.find? (fun e => e.1 == u)).map (fun e => e.2)

/-- The children scan of the BFS (indexer.py line 246): uuids of
messages whose `parent_uuid` equals `u`. -/
def childrenOf (msgs : List PMsg) (u : String) : List String :=
  (msgs.filter (fun m => m.parent_uuid == some u)).map (fun m => m.uuid)

/-- The BFS loop of `calculate_depth` (indexer.py lines 239-248), with
explicit fuel standing in for the unbounded Python `while queue`.
`calculate_depth` supplies fuel that provably suffices whenever the
uuids are distinct (the only inputs the Python loop terminates on
in general). -/
def bfsDepths (msgs : List PMsg) :
    Nat → List (String × Nat) → List (String × Nat) → List (String × Nat)
  | 0, _, depths => depths
  | _ + 1, [], depths => depths
  | fuel + 1, (u, d) :: queue, depths =>
    bfsDepths msgs fuel
      (queue ++ (childrenOf msgs u).map (fun c => (c, d + 1)))
      (depths ++ [(u, d)])

/-- The root scan of `calculate_depth` (indexer.py line 237): messages
with a falsy (`None` or empty) parent uuid. -/
def rootsOf (msgs : List PMsg) : List String :=
  (msgs.filter (fun m => optFalsy m.parent_uuid)).map (fun m => m.uuid)

/-- `ConversationIndexer.calculate_depth` (indexer.py lines 232-250). -/
def calculate_depth (msgs : List PMsg) : List (String × Nat) :=
  let roots := rootsOf msgs
  bfsDepths msgs (2 * msgs.length + roots.length + 1)
    (roots.map (fun r => (r, 0))) []

/-- The message row inserted for `m` (indexer.py lines 322-340), with
summarization disabled (`summarize=False`): the stored summary is the
first 150 characters of the content. -/
def toMsgRow (depths : List (String × Nat)) (session_id project_path
    conversation_file : String) (m : PMsg) : MsgRow :=
  { message_uuid := m.uuid
    session_id := session_id
    parent_uuid := m.parent_uuid
    is_sidechain := m.is_sidechain
    depth := (dget depths m.uuid).getD 0
    timestamp := m.timestamp
    message_type := m.message_type
    project_path := project_path
    conversation_file := conversation_file
    summary := pyTake m.content 150
    full_content := m.content }

/-- The conversation row inserted by `index_conversation`
(indexer.py lines 296-313): root = first parentless message (falling
back to the first message), summary = the metadata's `summary` key with
the placeholder default when the key is missing, or SQL NULL when there
is no metadata record at all. -/
def mkConvRow (project_path conversation_file : String)
    (conv_meta : Option ConvMeta) (m0 : PMsg) (rest : List PMsg)
    (session_id : String) : ConvRow :=
  { session_id := session_id
    project_path := project_path
    conversation_file := conversation_file
    root_message_uuid :=
      (((m0 :: rest).find? (fun m => optFalsy m.parent_uuid)).getD m0).uuid
    leaf_message_uuid := conv_meta.bind (fun cm => cm.leafUuid)
    conversation_summary :=
      conv_meta.map (fun cm => cm.summary.getD "Untitled conversation")
    first_message_at := m0.timestamp
    last_message_at := ((m0 :: rest).getLast (List.cons_ne_nil m0 rest)).timestamp
    message_count := (m0 :: rest).length }

/-- `ConversationIndexer.index_conversation` with `summarize=False`
(indexer.py lines 252-343; the `summarize=True` path calls the external
Anthropic API, an excluded collaborator per spec §3).  No messages or no
session id on the first message: no write.  Otherwise: delete any
existing rows of the session, then insert the conversation row and one
message row per message. -/
def index_conversation (db : DBState) (project_path conversation_file : String)
    (conv_meta : Option ConvMeta) (messages : List PMsg) : DBState :=
  match messages with
  | [] => db
  | m0 :: rest =>
    match optTruthy m0.session_id with
    | none => db
    | some session_id =>
      let depths := calculate_depth (m0 :: rest)
      let existing := db.conversations.any (fun c => c.session_id == session_id)
      let db1 : DBState :=
        if existing then
          { conversations :=
              db.conversations.filter (fun c => !(c.session_id == session_id)),
            messages :=
              db.messages.filter (fun r => !(r.session_id == session_id)) }
        else db
      { conversations :=
          db1.conversations ++
            [mkConvRow project_path conversation_file conv_meta m0 rest session_id],
        messages := db1.messages ++
          (m0 :: rest).map
            (toMsgRow depths session_id project_path conversation_file) }

/-- The empty store. -/
def dbEmpty : DBState := { conversations := [], messages := [] }

/-! ### Depth specification for `calculate_depth` -/

/-- The uuids of a message list. -/
def msgUuids (msgs : List PMsg) : List String := msgs.map (fun m => m.uuid)

/-- The depth specification: `DepthIs msgs u n` holds when the message
with uuid `u` lies `n` parent-steps above a parentless message — the
value the BFS assigns to every uuid it reaches. -/
inductive DepthIs (msgs : List PMsg) : String → Nat → Prop
  | root (m : PMsg) (hm : m ∈ msgs) (hr : optFalsy m.parent_uuid = true) :
      DepthIs msgs m.uuid 0
  | child (m : PMsg) (u : String) (n : Nat) (hm : m ∈ msgs)
      (hp : m.parent_uuid = some u) (hu : DepthIs msgs u n) :
      DepthIs msgs m.uuid (n + 1)

/-- `DescOf msgs a u`: following parent references upward from `u`
(within `msgs`) reaches `a`. -/
inductive DescOf (msgs : List PMsg) : String → String → Prop
  | refl (u : String) : DescOf msgs u u
  | child (m : PMsg) (a v : String) (hm : m ∈ msgs)
      (hp : m.parent_uuid = some v) (h : DescOf msgs a v) :
      DescOf msgs a m.uuid

/-- Two messages of a nodup-uuid list with the same uuid coincide. -/
theorem uuid_inj {msgs : List PMsg} (hnd : (msgUuids msgs).Nodup)
    {m p : PMsg} (hm : m ∈ msgs) (hp : p ∈ msgs) (h : m.uuid = p.uuid) :
    m = p :=
  List.inj_on_of_nodup_map hnd hm hp h

/-- Any uuid with a depth belongs to the list. -/
theorem DepthIs.mem_uuids {msgs : List PMsg} {u : String} {n : Nat}
    (h : DepthIs msgs u n) : u ∈ msgUuids msgs := by
  cases h with
  | root m hm _ => exact List.mem_map_of_mem _ hm
  | child m v n hm _ _ => exact List.mem_map_of_mem _ hm

/-- Inversion of a depth derivation at a known message. -/
theorem DepthIs_invert {msgs : List PMsg} {x : String} {n : Nat}
    (h : DepthIs msgs x n) (hnd : (msgUuids msgs).Nodup)
    {m : PMsg} (hm : m ∈ msgs) (hx : x = m.uuid) :
    (optFalsy m.parent_uuid = true ∧ n = 0) ∨
    (∃ u k, m.parent_uuid = some u ∧ DepthIs msgs u k ∧ n = k + 1) := by
  cases h with
  | root m2 hm2 hr =>
    have he : m2 = m := uuid_inj hnd hm2 hm hx
    subst he
    exact Or.inl ⟨hr, rfl⟩
  | child m2 u k hm2 hp hu =>
    have he : m2 = m := uuid_inj hnd hm2 hm hx
    subst he
    exact Or.inr ⟨u, k, hp, hu, rfl⟩

/-- Depths are unique when uuids are distinct and no uuid is the empty
string (so a falsy parent reference cannot also resolve). -/
theorem DepthIs_unique {msgs : List PMsg} (hnd : (msgUuids msgs).Nodup)
    (hne : "" ∉ msgUuids msgs) {u : String} {n n2 : Nat}
    (h1 : DepthIs msgs u n) (h2 : DepthIs msgs u n2) : n = n2 := by
  induction h1 generalizing n2 with
  | root m hm hr =>
    rcases DepthIs_invert h2 hnd hm rfl with ⟨-, h0⟩ | ⟨v, k, hpv, hv, -⟩
    · exact h0.symm
    · rw [hpv] at hr
      have : v = "" := by
        simpa [optFalsy, String.isEmpty_iff] using hr
      rw [this] at hv
      exact absurd hv.mem_uuids hne
  | child m v k hm hp hv ih =>
    rcases DepthIs_invert h2 hnd hm rfl with ⟨hr2, -⟩ | ⟨v2, k2, hpv2, hv2, hk2⟩
    · rw [hp] at hr2
      have : v = "" := by
        simpa [optFalsy, String.isEmpty_iff] using hr2
      rw [this] at hv
      exact absurd hv.mem_uuids hne
    · rw [hp] at hpv2
      injection hpv2 with hvu
      rw [← hvu] at hv2
      rw [hk2, ih hv2]

/-- Peel a descent chain at the top: either the endpoint is the ancestor
itself, or the chain enters through a direct child of the ancestor. -/
theorem DescOf.decompose {msgs : List PMsg} {a x : String}
    (h : DescOf msgs a x) :
    x = a ∨ ∃ m ∈ msgs, m.parent_uuid = some a ∧ DescOf msgs m.uuid x := by
  induction h with
  | refl u => exact Or.inl rfl
  | child m a v hm hp hsub ih =>
    rcases ih with he | ⟨m2, hm2, hp2, hd2⟩
    · right
      refine ⟨m, hm, ?_, DescOf.refl m.uuid⟩
      rw [hp, he]
    · exact Or.inr ⟨m2, hm2, hp2, DescOf.child m m2.uuid v hm hp hd2⟩

/-- Depth derivations only mention uuids of the list, so they are stable
under permutation of the message list. -/
theorem DepthIs_perm {msgs msgs2 : List PMsg} (hp : msgs.Perm msgs2)
    {u : String} {n : Nat} (h : DepthIs msgs u n) : DepthIs msgs2 u n := by
  induction h with
  | root m hm hr => exact DepthIs.root m (hp.mem_iff.mp hm) hr
  | child m v k hm hpar hv ih => exact DepthIs.child m v k (hp.mem_iff.mp hm) hpar ih

/-- Keys of an assignment list. -/
def keysOf (l : List (String × Nat)) : List String := l.map Prod.fst

theorem childrenOf_mem {msgs : List PMsg} {u c : String} :
    c ∈ childrenOf msgs u ↔ ∃ m ∈ msgs, m.parent_uuid = some u ∧ m.uuid = c := by
  unfold childrenOf
  simp only [List.mem_map, List.mem_filter, beq_iff_eq]
  constructor
  · rintro ⟨m, ⟨hm, hpar⟩, hc⟩
    exact ⟨m, hm, hpar, hc⟩
  · rintro ⟨m, hm, hpar, hc⟩
    exact ⟨m, ⟨hm, hpar⟩, hc⟩

theorem childrenOf_nodup {msgs : List PMsg} (hnd : (msgUuids msgs).Nodup)
    (u : String) : (childrenOf msgs u).Nodup := by
  unfold childrenOf
  exact hnd.sublist ((msgs.filter_sublist).map (fun m => m.uuid))

/-- The visited uuids: those still queued or already assigned a depth. -/
def visitedF (queue depths : List (String × Nat)) : Finset String :=
  (keysOf queue).toFinset ∪ (keysOf depths).toFinset

/-- Termination measure of the BFS loop: queue length plus twice the
unvisited uuids. -/
def gMeasure (msgs : List PMsg) (queue depths : List (String × Nat)) : Nat :=
  queue.length + 2 * (((msgUuids msgs).toFinset \ visitedF queue depths).card)

/-- The BFS loop invariant. -/
structure BfsInv (msgs : List PMsg) (queue depths : List (String × Nat)) :
    Prop where
  qok : ∀ e ∈ queue, DepthIs msgs e.1 e.2
  dok : ∀ e ∈ depths, DepthIs msgs e.1 e.2
  ndq : (keysOf queue).Nodup
  ndd : (keysOf depths).Nodup
  disj : ∀ u ∈ keysOf queue, u ∉ keysOf depths
  qsub : ∀ u ∈ keysOf queue, u ∈ msgUuids msgs
  dsub : ∀ u ∈ keysOf depths, u ∈ msgUuids msgs
  pp : ∀ m ∈ msgs, (m.uuid ∈ keysOf queue ∨ m.uuid ∈ keysOf depths) →
    optFalsy m.parent_uuid = true ∨
      ∃ v, m.parent_uuid = some v ∧ v ∈ keysOf depths
  frontier : ∀ x n, DepthIs msgs x n →
    x ∈ keysOf depths ∨ ∃ e ∈ queue, DescOf msgs e.1 x

/-- What holds of the finished assignment list. -/
structure BfsOut (msgs : List PMsg) (out : List (String × Nat)) : Prop where
  nd : (keysOf out).Nodup
  sound : ∀ e ∈ out, DepthIs msgs e.1 e.2
  complete : ∀ x n, DepthIs msgs x n → x ∈ keysOf out

theorem bfsInv_step {msgs : List PMsg} (hnd : (msgUuids msgs).Nodup)
    (hne : "" ∉ msgUuids msgs) (u : String) (d : Nat)
    (rest depths : List (String × Nat))
    (hinv : BfsInv msgs ((u, d) :: rest) depths) :
    BfsInv msgs (rest ++ (childrenOf msgs u).map (fun c => (c, d + 1)))
      (depths ++ [(u, d)]) := by
  have hkq : keysOf (rest ++ (childrenOf msgs u).map (fun c => (c, d + 1)))
      = keysOf rest ++ childrenOf msgs u := by
    simp [keysOf, Function.comp_def]
  have hkd : keysOf (depths ++ [(u, d)]) = keysOf depths ++ [u] := by
    simp [keysOf]
  have hucons : keysOf ((u, d) :: rest) = u :: keysOf rest := rfl
  have hufst : u ∈ keysOf ((u, d) :: rest) := by
    rw [hucons]; exact List.mem_cons_self u _
  have hunotd : u ∉ keysOf depths := hinv.disj u hufst
  have hndq := hinv.ndq
  rw [hucons, List.nodup_cons] at hndq
  have hunotrest : u ∉ keysOf rest := hndq.1
  have husub : u ∈ msgUuids msgs := hinv.qsub u hufst
  have hune : u ≠ "" := fun h => hne (h ▸ husub)
  have hfresh : ∀ c ∈ childrenOf msgs u,
      c ∉ keysOf ((u, d) :: rest) ∧ c ∉ keysOf depths := by
    intro c hc
    rcases childrenOf_mem.mp hc with ⟨m, hm, hpar, hcu⟩
    subst hcu
    have hnotvis : ¬ (m.uuid ∈ keysOf ((u, d) :: rest) ∨ m.uuid ∈ keysOf depths) := by
      intro hvis
      rcases hinv.pp m hm hvis with hfal | ⟨v, hv, hvd⟩
      · rw [hpar] at hfal
        have : u = "" := by
          simpa [optFalsy, String.isEmpty_iff] using hfal
        exact hune this
      · rw [hpar] at hv
        injection hv with hv2
        rw [← hv2] at hvd
        exact hunotd hvd
    exact ⟨fun h => hnotvis (Or.inl h), fun h => hnotvis (Or.inr h)⟩
  have hqhead : DepthIs msgs u d := hinv.qok (u, d) (List.mem_cons_self _ _)
  have hcdep : ∀ c ∈ childrenOf msgs u, DepthIs msgs c (d + 1) := by
    intro c hc
    rcases childrenOf_mem.mp hc with ⟨m, hm, hpar, hcu⟩
    subst hcu
    exact DepthIs.child m u d hm hpar hqhead
  refine ⟨?_, ?_, ?_, ?_, ?_, ?_, ?_, ?_, ?_⟩
  · intro e he
    rcases List.mem_append.mp he with hr | hcm
    · exact hinv.qok e (List.mem_cons_of_mem _ hr)
    · rcases List.mem_map.mp hcm with ⟨c, hc, hce⟩
      rw [← hce]
      exact hcdep c hc
  · intro e he
    rcases List.mem_append.mp he with hd | hu
    · exact hinv.dok e hd
    · rw [List.mem_singleton.mp hu]
      exact hqhead
  · rw [hkq]
    refine List.Nodup.append hndq.2 (childrenOf_nodup hnd u) ?_
    intro a ha hac
    exact (hfresh a hac).1 (by rw [hucons]; exact List.mem_cons_of_mem _ ha)
  · rw [hkd]
    refine List.Nodup.append hinv.ndd (List.nodup_singleton u) ?_
    intro a ha hau
    rw [List.mem_singleton.mp hau] at ha
    exact hunotd ha
  · intro x hx
    rw [hkq] at hx
    rw [hkd]
    rcases List.mem_append.mp hx with hr | hc
    · intro hmem
      rcases List.mem_append.mp hmem with hd | hu
      · exact hinv.disj x (by rw [hucons]; exact List.mem_cons_of_mem _ hr) hd
      · rw [List.mem_singleton.mp hu] at hr
        exact hunotrest hr
    · intro hmem
      rcases List.mem_append.mp hmem with hd | hu
      · exact (hfresh x hc).2 hd
      · rw [List.mem_singleton.mp hu] at hc
        exact (hfresh u hc).1 hufst
  · intro x hx
    rw [hkq] at hx
    rcases List.mem_append.mp hx with hr | hc
    · exact hinv.qsub x (by rw [hucons]; exact List.mem_cons_of_mem _ hr)
    · rcases childrenOf_mem.mp hc with ⟨m, hm, -, hcu⟩
      rw [← hcu]
      exact List.mem_map_of_mem _ hm
  · intro x hx
    rw [hkd] at hx
    rcases List.mem_append.mp hx with hd | hu
    · exact hinv.dsub x hd
    · rw [List.mem_singleton.mp hu]
      exact husub
  · intro m hm hvis
    rw [hkq, hkd] at hvis
    have hud : u ∈ keysOf depths ++ [u] :=
      List.mem_append_right _ (List.mem_singleton.mpr rfl)
    rcases hvis with hq | hd
    · rcases List.mem_append.mp hq with hr | hc
      · rcases hinv.pp m hm (Or.inl (by
            rw [hucons]; exact List.mem_cons_of_mem _ hr)) with hfal | ⟨v, hv, hvd⟩
        · exact Or.inl hfal
        · exact Or.inr ⟨v, hv, by rw [hkd]; exact List.mem_append_left _ hvd⟩
      · rcases childrenOf_mem.mp hc with ⟨m2, hm2, hpar2, hcu2⟩
        have : m2 = m := uuid_inj hnd hm2 hm hcu2
        subst this
        refine Or.inr ⟨u, hpar2, ?_⟩
        rw [hkd]
        exact hud
    · rcases List.mem_append.mp hd with hold | hu2
      · rcases hinv.pp m hm (Or.inr hold) with hfal | ⟨v, hv, hvd⟩
        · exact Or.inl hfal
        · exact Or.inr ⟨v, hv, by rw [hkd]; exact List.mem_append_left _ hvd⟩
      · have hmu : m.uuid = u := List.mem_singleton.mp hu2
        rcases hinv.pp m hm (Or.inl (by rw [hucons, hmu]; exact List.mem_cons_self u _))
          with hfal | ⟨v, hv, hvd⟩
        · exact Or.inl hfal
        · exact Or.inr ⟨v, hv, by rw [hkd]; exact List.mem_append_left _ hvd⟩
  · intro x n hx
    rcases hinv.frontier x n hx with hd | ⟨e, he, hdesc⟩
    · left
      rw [hkd]
      exact List.mem_append_left _ hd
    · rcases List.mem_cons.mp he with hhead | hr
      · subst hhead
        rcases hdesc.decompose with hxu | ⟨m, hm, hpar, hdm⟩
        · left
          rw [hkd, hxu]
          exact List.mem_append_right _ (List.mem_singleton.mpr rfl)
        · right
          refine ⟨(m.uuid, d + 1), ?_, hdm⟩
          apply List.mem_append_right
          exact List.mem_map_of_mem _ (childrenOf_mem.mpr ⟨m, hm, hpar, rfl⟩)
      · exact Or.inr ⟨e, List.mem_append_left _ hr, hdesc⟩

theorem gMeasure_step {msgs : List PMsg} (hnd : (msgUuids msgs).Nodup)
    (hne : "" ∉ msgUuids msgs) (u : String) (d : Nat)
    (rest depths : List (String × Nat))
    (hinv : BfsInv msgs ((u, d) :: rest) depths) :
    gMeasure msgs (rest ++ (childrenOf msgs u).map (fun c => (c, d + 1)))
        (depths ++ [(u, d)])
      < gMeasure msgs ((u, d) :: rest) depths := by
  have hkq : keysOf (rest ++ (childrenOf msgs u).map (fun c => (c, d + 1)))
      = keysOf rest ++ childrenOf msgs u := by
    simp [keysOf, Function.comp_def]
  have hkd : keysOf (depths ++ [(u, d)]) = keysOf depths ++ [u] := by
    simp [keysOf]
  have hucons : keysOf ((u, d) :: rest) = u :: keysOf rest := rfl
  have hufst : u ∈ keysOf ((u, d) :: rest) := by
    rw [hucons]; exact List.mem_cons_self u _
  have hunotd : u ∉ keysOf depths := hinv.disj u hufst
  have husub : u ∈ msgUuids msgs := hinv.qsub u hufst
  have hune : u ≠ "" := fun h => hne (h ▸ husub)
  have hfresh : ∀ c ∈ childrenOf msgs u,
      c ∉ keysOf ((u, d) :: rest) ∧ c ∉ keysOf depths := by
    intro c hc
    rcases childrenOf_mem.mp hc with ⟨m, hm, hpar, hcu⟩
    subst hcu
    have hnotvis : ¬ (m.uuid ∈ keysOf ((u, d) :: rest) ∨ m.uuid ∈ keysOf depths) := by
      intro hvis
      rcases hinv.pp m hm hvis with hfal | ⟨v, hv, hvd⟩
      · rw [hpar] at hfal
        have : u = "" := by
          simpa [optFalsy, String.isEmpty_iff] using hfal
        exact hune this
      · rw [hpar] at hv
        injection hv with hv2
        rw [← hv2] at hvd
        exact hunotd hvd
    exact ⟨fun h => hnotvis (Or.inl h), fun h => hnotvis (Or.inr h)⟩
  have hveq : visitedF (rest ++ (childrenOf msgs u).map (fun c => (c, d + 1)))
      (depths ++ [(u, d)]) =
      visitedF ((u, d) :: rest) depths ∪ (childrenOf msgs u).toFinset := by
    unfold visitedF
    rw [hkq, hkd, hucons]
    ext x
    simp only [Finset.mem_union, List.mem_toFinset, List.mem_append,
      List.mem_cons, List.mem_singleton]
    tauto
  have hCsub : (childrenOf msgs u).toFinset ⊆
      (msgUuids msgs).toFinset \ visitedF ((u, d) :: rest) depths := by
    intro c hc
    rw [List.mem_toFinset] at hc
    rw [Finset.mem_sdiff]
    constructor
    · rcases childrenOf_mem.mp hc with ⟨m, hm, -, hcu⟩
      rw [List.mem_toFinset, ← hcu]
      exact List.mem_map_of_mem _ hm
    · unfold visitedF
      rw [Finset.mem_union, List.mem_toFinset, List.mem_toFinset]
      intro hvis
      rcases hvis with h1 | h2
      · exact (hfresh c hc).1 h1
      · exact (hfresh c hc).2 h2
  have hsplit : (msgUuids msgs).toFinset \
      (visitedF ((u, d) :: rest) depths ∪ (childrenOf msgs u).toFinset) =
      ((msgUuids msgs).toFinset \ visitedF ((u, d) :: rest) depths) \
        (childrenOf msgs u).toFinset := by
    ext x
    simp only [Finset.mem_sdiff, Finset.mem_union]
    tauto
  have hCcard : (childrenOf msgs u).toFinset.card = (childrenOf msgs u).length :=
    List.toFinset_card_of_nodup (childrenOf_nodup hnd u)
  have hle : (childrenOf msgs u).toFinset.card ≤
      ((msgUuids msgs).toFinset \ visitedF ((u, d) :: rest) depths).card :=
    Finset.card_le_card hCsub
  have hcard := Finset.card_sdiff hCsub
  unfold gMeasure
  rw [hveq, hsplit, hcard]
  simp only [List.length_append, List.length_map, List.length_cons]
  omega

theorem bfs_out (msgs : List PMsg) (hnd : (msgUuids msgs).Nodup)
    (hne : "" ∉ msgUuids msgs) :
    ∀ fuel queue depths, BfsInv msgs queue depths →
      gMeasure msgs queue depths < fuel →
      BfsOut msgs (bfsDepths msgs fuel queue depths) := by
  intro fuel
  induction fuel with
  | zero =>
    intro queue depths hinv hg
    omega
  | succ f ih =>
    intro queue depths hinv hg
    cases queue with
    | nil =>
      show BfsOut msgs depths
      refine ⟨hinv.ndd, hinv.dok, ?_⟩
      intro x n hx
      rcases hinv.frontier x n hx with h | ⟨e, he, -⟩
      · exact h
      · exact absurd he (List.not_mem_nil e)
    | cons ud rest =>
      obtain ⟨u, d⟩ := ud
      show BfsOut msgs (bfsDepths msgs f
        (rest ++ (childrenOf msgs u).map (fun c => (c, d + 1)))
        (depths ++ [(u, d)]))
      apply ih
      · exact bfsInv_step hnd hne u d rest depths hinv
      · have := gMeasure_step hnd hne u d rest depths hinv
        omega

theorem rootsOf_mem {msgs : List PMsg} {r : String} :
    r ∈ rootsOf msgs ↔ ∃ m ∈ msgs, optFalsy m.parent_uuid = true ∧ m.uuid = r := by
  unfold rootsOf
  simp only [List.mem_map, List.mem_filter]
  constructor
  · rintro ⟨m, ⟨hm, hf⟩, hr⟩
    exact ⟨m, hm, hf, hr⟩
  · rintro ⟨m, hm, hf, hr⟩
    exact ⟨m, ⟨hm, hf⟩, hr⟩

theorem rootsOf_nodup {msgs : List PMsg} (hnd : (msgUuids msgs).Nodup) :
    (rootsOf msgs).Nodup := by
  unfold rootsOf
  exact hnd.sublist ((msgs.filter_sublist).map (fun m => m.uuid))

/-- The finished depth table of `calculate_depth` is sound and complete
for `DepthIs`, with distinct keys. -/
theorem calculate_depth_out (msgs : List PMsg) (hnd : (msgUuids msgs).Nodup)
    (hne : "" ∉ msgUuids msgs) : BfsOut msgs (calculate_depth msgs) := by
  unfold calculate_depth
  have hkeys : keysOf ((rootsOf msgs).map (fun r => (r, 0))) = rootsOf msgs := by
    simp [keysOf, Function.comp_def]
  apply bfs_out msgs hnd hne
  · refine ⟨?_, ?_, ?_, ?_, ?_, ?_, ?_, ?_, ?_⟩
    · intro e he
      rcases List.mem_map.mp he with ⟨r, hr, hre⟩
      rcases rootsOf_mem.mp hr with ⟨m, hm, hf, hmr⟩
      rw [← hre, ← hmr]
      exact DepthIs.root m hm hf
    · intro e he
      exact absurd he (List.not_mem_nil e)
    · rw [hkeys]
      exact rootsOf_nodup hnd
    · exact List.nodup_nil
    · intro x hx h
      exact absurd h (List.not_mem_nil x)
    · intro x hx
      rw [hkeys] at hx
      rcases rootsOf_mem.mp hx with ⟨m, hm, -, hmr⟩
      rw [← hmr]
      exact List.mem_map_of_mem _ hm
    · intro x hx
      exact absurd hx (List.not_mem_nil x)
    · intro m hm hvis
      rcases hvis with hq | hd
      · rw [hkeys] at hq
        rcases rootsOf_mem.mp hq with ⟨m2, hm2, hf2, hmr2⟩
        have : m2 = m := uuid_inj hnd hm2 hm hmr2
        subst this
        exact Or.inl hf2
      · exact absurd hd (List.not_mem_nil _)
    · intro x n hx
      right
      induction hx with
      | root m hm hf =>
        refine ⟨(m.uuid, 0), ?_, DescOf.refl m.uuid⟩
        exact List.mem_map_of_mem _ (rootsOf_mem.mpr ⟨m, hm, hf, rfl⟩)
      | child m v k hm hpar hv ih =>
        rcases ih with ⟨e, he, hdesc⟩
        exact ⟨e, he, DescOf.child m e.1 v hm hpar hdesc⟩
  · unfold gMeasure
    have h1 : ((rootsOf msgs).map (fun r => (r, 0))).length = (rootsOf msgs).length := by
      simp
    have h2 : (rootsOf msgs).length ≤ msgs.length := by
      unfold rootsOf
      calc ((msgs.filter (fun m => optFalsy m.parent_uuid)).map
          (fun m => m.uuid)).length
          = (msgs.filter (fun m => optFalsy m.parent_uuid)).length := by simp
        _ ≤ msgs.length := List.length_filter_le _ _
    have h3 : (((msgUuids msgs).toFinset \ visitedF
        ((rootsOf msgs).map (fun r => (r, 0))) []).card) ≤ msgs.length := by
      calc ((msgUuids msgs).toFinset \ _).card
          ≤ (msgUuids msgs).toFinset.card := Finset.card_le_card (Finset.sdiff_subset)
        _ ≤ (msgUuids msgs).length := (msgUuids msgs).toFinset_card_le
        _ = msgs.length := by simp [msgUuids]
    omega

theorem dget_some_mem {l : List (String × Nat)} {u : String} {d : Nat}
    (h : dget l u = some d) : (u, d) ∈ l := by
  unfold dget at h
  cases hf : l.reverse.find? (fun e => e.1 == u) with
  | none =>
    rw [hf] at h
    exact Option.noConfusion h
  | some e =>
    rw [hf] at h
    rw [show (Option.map (fun e : String × Nat => e.2) (some e)) = some e.2 from rfl] at h
    injection h with h2
    have hmem := List.mem_of_find?_eq_some hf
    have hpred := List.find?_some hf
    rw [beq_iff_eq] at hpred
    have : e = (u, d) := by
      obtain ⟨e1, e2⟩ := e
      simp only at hpred h2
      rw [hpred, h2]
    rw [← this]
    exact List.mem_reverse.mp hmem

theorem dget_isSome {l : List (String × Nat)} {u : String}
    (h : u ∈ keysOf l) : ∃ d, dget l u = some d := by
  unfold dget
  rcases List.mem_map.mp h with ⟨e, he, heu⟩
  have hsome : (l.reverse.find? (fun e => e.1 == u)).isSome := by
    rw [List.find?_isSome]
    refine ⟨e, List.mem_reverse.mpr he, ?_⟩
    rw [heu]
    exact beq_self_eq_true u
  rcases Option.isSome_iff_exists.mp hsome with ⟨e2, he2⟩
  exact ⟨e2.2, by rw [he2]; rfl⟩

/-- The value `index_conversation` stores in the `depth` column for
uuid `u`: the BFS assignment, defaulting to 0. -/
def depthOf (msgs : List PMsg) (u : String) : Nat :=
  (dget (calculate_depth msgs) u).getD 0

theorem depthOf_of_depthIs {msgs : List PMsg} {u : String} {n : Nat}
    (hnd : (msgUuids msgs).Nodup) (hne : "" ∉ msgUuids msgs)
    (h : DepthIs msgs u n) : dget (calculate_depth msgs) u = some n := by
  have hout := calculate_depth_out msgs hnd hne
  rcases dget_isSome (hout.complete u n h) with ⟨d, hd⟩
  have hsound : DepthIs msgs u d := hout.sound (u, d) (dget_some_mem hd)
  have hdn : d = n := DepthIs_unique hnd hne hsound h
  rw [hd, hdn]

theorem depthOf_of_unreached {msgs : List PMsg} {u : String}
    (hnd : (msgUuids msgs).Nodup) (hne : "" ∉ msgUuids msgs)
    (h : ∀ n, ¬ DepthIs msgs u n) : dget (calculate_depth msgs) u = none := by
  cases hd : dget (calculate_depth msgs) u with
  | none => rfl
  | some d =>
    have := (calculate_depth_out msgs hnd hne).sound (u, d) (dget_some_mem hd)
    exact absurd this (h d)

/-- C2 counterexample input: a message whose parent reference is dangling. -/
def mDangling : PMsg := { uuid := "A", parent_uuid := some "X" }

/-- C2 counterexample input: a message whose parent is `mDangling`. -/
def mUnder : PMsg := { uuid := "B", parent_uuid := some "A" }

/-- C2 counterexample: message `B` has a resolvable parent `A` in the
set, yet its stored depth is 0, not `A`'s stored depth plus 1 — the
BFS never reaches either message because `A`'s own parent `X` is
missing, and the store falls back to depth 0 for both. -/
theorem c2_counterexample :
    (mDangling ∈ [mDangling, mUnder] ∧ mUnder ∈ [mDangling, mUnder] ∧
      mUnder.parent_uuid = some mDangling.uuid) ∧
    depthOf [mDangling, mUnder] mUnder.uuid ≠
      depthOf [mDangling, mUnder] mDangling.uuid + 1 :=
  ⟨⟨by decide, by decide, by decide⟩, by decide⟩

/-- C2 (amended): over a message list with distinct, non-empty uuids,
the stored depth of a message is 0 when it has no resolvable parent;
when a resolvable parent exists the stored depth is the parent's stored
depth plus 1 **provided the message is reachable from a parentless
message along parent links**, while an unreachable message (dangling
ancestor chain or cycle) is stored with depth 0, as is its parent; the
computed depths depend only on the set of messages, not on their order;
and the row built for `m` stores exactly this value. -/
theorem c2_depth_law (msgs : List PMsg) (m : PMsg)
    (hnd : (msgUuids msgs).Nodup) (hne : "" ∉ msgUuids msgs) (hm : m ∈ msgs) :
    ((¬ ∃ p ∈ msgs, m.parent_uuid = some p.uuid) → depthOf msgs m.uuid = 0) ∧
    (∀ p ∈ msgs, m.parent_uuid = some p.uuid →
      (∃ n, DepthIs msgs m.uuid n) →
      depthOf msgs m.uuid = depthOf msgs p.uuid + 1) ∧
    (∀ p ∈ msgs, m.parent_uuid = some p.uuid →
      (¬ ∃ n, DepthIs msgs m.uuid n) →
      depthOf msgs m.uuid = 0 ∧ depthOf msgs p.uuid = 0) ∧
    (∀ msgs2, msgs.Perm msgs2 → ∀ u, depthOf msgs u = depthOf msgs2 u) ∧
    (∀ depths sid pp cf,
      (toMsgRow depths sid pp cf m).depth = (dget depths m.uuid).getD 0) := by
  refine ⟨?_, ?_, ?_, ?_, ?_⟩
  · intro hnores
    by_cases hf : optFalsy m.parent_uuid = true
    · unfold depthOf
      rw [depthOf_of_depthIs hnd hne (DepthIs.root m hm hf)]
      rfl
    · have hun : ∀ n, ¬ DepthIs msgs m.uuid n := by
        intro n hn
        rcases DepthIs_invert hn hnd hm rfl with ⟨hf2, -⟩ | ⟨v, k, hpv, hv, -⟩
        · exact hf hf2
        · rcases List.mem_map.mp hv.mem_uuids with ⟨p, hp, hpu⟩
          exact hnores ⟨p, hp, by rw [hpv, hpu]⟩
      unfold depthOf
      rw [depthOf_of_unreached hnd hne hun]
      rfl
  · rintro p hp hpar ⟨n, hn⟩
    rcases DepthIs_invert hn hnd hm rfl with ⟨hf2, -⟩ | ⟨v, k, hpv, hv, hk⟩
    · rw [hpar] at hf2
      have hpe : p.uuid = "" := by
        simpa [optFalsy, String.isEmpty_iff] using hf2
      exact absurd (hpe ▸ List.mem_map_of_mem _ hp) hne
    · rw [hpar] at hpv
      injection hpv with hv2
      rw [← hv2] at hv
      unfold depthOf
      rw [depthOf_of_depthIs hnd hne hn, depthOf_of_depthIs hnd hne hv, hk]
      rfl
  · intro p hp hpar hun
    have hunAll : ∀ n, ¬ DepthIs msgs m.uuid n := fun n hn => hun ⟨n, hn⟩
    constructor
    · unfold depthOf
      rw [depthOf_of_unreached hnd hne hunAll]
      rfl
    · have hunp : ∀ k, ¬ DepthIs msgs p.uuid k := fun k hk =>
        hunAll (k + 1) (DepthIs.child m p.uuid k hm hpar hk)
      unfold depthOf
      rw [depthOf_of_unreached hnd hne hunp]
      rfl
  · intro msgs2 hperm u
    have hpm := hperm.map (fun m => m.uuid)
    have hnd2 : (msgUuids msgs2).Nodup := hpm.nodup_iff.mp hnd
    have hne2 : "" ∉ msgUuids msgs2 := fun h => hne (hpm.mem_iff.mpr h)
    by_cases hr : ∃ n, DepthIs msgs u n
    · rcases hr with ⟨n, hn⟩
      unfold depthOf
      rw [depthOf_of_depthIs hnd hne hn,
        depthOf_of_depthIs hnd2 hne2 (DepthIs_perm hperm hn)]
    · have h1 : ∀ n, ¬ DepthIs msgs u n := fun n hn => hr ⟨n, hn⟩
      have h2 : ∀ n, ¬ DepthIs msgs2 u n := fun n hn =>
        h1 n (DepthIs_perm hperm.symm hn)
      unfold depthOf
      rw [depthOf_of_unreached hnd hne h1, depthOf_of_unreached hnd2 hne2 h2]
  · intro depths sid pp cf
    rfl

/-- A parentless message for the C2 witness. -/
def mRootW : PMsg := { uuid := "A" }

/-- Its child for the C2 witness. -/
def mChildW : PMsg := { uuid := "B", parent_uuid := some "A" }

/-- Witness for C2: in the two-message chain the child's stored depth is
the root's stored depth plus 1. -/
theorem c2_depth_law_witness :
    depthOf [mRootW, mChildW] mChildW.uuid =
      depthOf [mRootW, mChildW] mRootW.uuid + 1 :=
  (c2_depth_law [mRootW, mChildW] mChildW (by decide) (by decide)
      (by decide)).2.1 mRootW (by decide) rfl
    ⟨1, DepthIs.child mChildW "A" 0 (by decide) rfl
      (DepthIs.root mRootW (by decide) rfl)⟩

/-- Unfolding lemma: the result of `index_conversation` on a nonempty
message list with a truthy session id on the first message. -/
theorem index_conversation_cons (db : DBState) (pp cf : String)
    (meta : Option ConvMeta) (m0 : PMsg) (rest : List PMsg) (sid : String)
    (hs : optTruthy m0.session_id = some sid) :
    index_conversation db pp cf meta (m0 :: rest) =
      { conversations :=
          (if db.conversations.any (fun c => c.session_id == sid) then
            db.conversations.filter (fun c => !(c.session_id == sid))
          else db.conversations) ++ [mkConvRow pp cf meta m0 rest sid],
        messages :=
          (if db.conversations.any (fun c => c.session_id == sid) then
            db.messages.filter (fun r => !(r.session_id == sid))
          else db.messages) ++
            (m0 :: rest).map
              (toMsgRow (calculate_depth (m0 :: rest)) sid pp cf) } := by
  by_cases hex : db.conversations.any (fun c => c.session_id == sid) <;>
    simp [index_conversation, hs, hex]

/-- C5 counterexample input: the first message carries no session id. -/
def mNoSid : PMsg := { uuid := "N", content := "hi", timestamp := some "t0" }

/-- C5 counterexample input: a later message carries session id `S2`. -/
def mLate : PMsg :=
  { uuid := "L", session_id := some "S2", content := "hi2", timestamp := some "t1" }

/-- C5 counterexample: a file whose first message lacks a session id but
whose second message carries one is **not** indexed — `index_conversation`
reads the session id from `messages[0]` only and aborts, leaving the
store untouched, contrary to the claim that the file is indexed under
the later message's session id. -/
theorem c5_counterexample :
    index_conversation dbEmpty "p" "f" none [mNoSid, mLate] = dbEmpty ∧
    ¬ ∃ c ∈ (index_conversation dbEmpty "p" "f" none [mNoSid, mLate]).conversations,
        c.session_id = "S2" :=
  ⟨by decide, by decide⟩

/-- C5 (amended): the session identifier is read from the first message
record only; if that record's session id is missing or empty the file is
not indexed at all (no rows written), and otherwise the conversation row
and every inserted message row carry the first record's session id. -/
theorem c5_session_from_first (db : DBState) (pp cf : String)
    (meta : Option ConvMeta) (m0 : PMsg) (rest : List PMsg) :
    (optTruthy m0.session_id = none →
      index_conversation db pp cf meta (m0 :: rest) = db) ∧
    (∀ sid, optTruthy m0.session_id = some sid →
      (∃ cr, (index_conversation db pp cf meta (m0 :: rest)).conversations.getLast?
          = some cr ∧ cr.session_id = sid) ∧
      (∀ r ∈ (index_conversation db pp cf meta (m0 :: rest)).messages,
        r ∈ db.messages ∨ r.session_id = sid)) := by
  constructor
  · intro h
    simp only [index_conversation, h]
  · intro sid hs
    rw [index_conversation_cons db pp cf meta m0 rest sid hs]
    constructor
    · exact ⟨mkConvRow pp cf meta m0 rest sid, List.getLast?_concat _, rfl⟩
    · intro r hr
      rcases List.mem_append.mp hr with hl | hrr
      · left
        by_cases hex : db.conversations.any (fun c => c.session_id == sid)
        · simp only [hex, if_true] at hl
          exact List.mem_of_mem_filter hl
        · simp only [hex] at hl
          simpa using hl
      · right
        rcases List.mem_map.mp hrr with ⟨m, _, hm⟩
        rw [← hm]
        rfl

/-- Witness for C5 on the two no-op and normal paths. -/
theorem c5_session_from_first_witness :
    optTruthy mNoSid.session_id = none ∧
    index_conversation dbEmpty "p" "f" none [mNoSid, mLate] = dbEmpty :=
  ⟨by decide,
   (c5_session_from_first dbEmpty "p" "f" none mNoSid [mLate]).1 (by decide)⟩

/-- C4 counterexample input: a lone message with a session id. -/
def mA0 : PMsg :=
  { uuid := "A", session_id := some "S", timestamp := some "t1", content := "hello" }

/-- C4 counterexample: indexing a file parsed **without** a
conversation-metadata record stores SQL NULL as the conversation
summary, not the fixed placeholder string the claim names. -/
theorem c4_counterexample :
    (index_conversation dbEmpty "p" "f" none [mA0]).conversations.map
        (fun c => c.conversation_summary) = [none] ∧
    (index_conversation dbEmpty "p" "f" none [mA0]).conversations.map
        (fun c => c.conversation_summary) ≠ [some "Untitled conversation"] :=
  ⟨by decide, by decide⟩

/-- C4 (amended): the placeholder string is used only when a metadata
record is present but lacks a `summary` key; with no metadata record the
conversation summary is written as NULL, and a metadata summary is
stored verbatim. -/
theorem c4_summary_default (db : DBState) (pp cf : String)
    (meta : Option ConvMeta) (m0 : PMsg) (rest : List PMsg) (sid : String)
    (hs : optTruthy m0.session_id = some sid) :
    ∃ cr, (index_conversation db pp cf meta (m0 :: rest)).conversations.getLast?
        = some cr ∧
      (meta = none → cr.conversation_summary = none) ∧
      (∀ cm : ConvMeta, meta = some cm → cm.summary = none →
        cr.conversation_summary = some "Untitled conversation") ∧
      (∀ cm : ConvMeta, ∀ s, meta = some cm → cm.summary = some s →
        cr.conversation_summary = some s) := by
  rw [index_conversation_cons db pp cf meta m0 rest sid hs]
  refine ⟨mkConvRow pp cf meta m0 rest sid, List.getLast?_concat _, ?_, ?_, ?_⟩
  · intro h; subst h; rfl
  · intro cm h hsum; subst h
    simp [mkConvRow, hsum]
  · intro cm s h hsum; subst h
    simp [mkConvRow, hsum]

theorem bool_eq_false {b : Bool} (h : ¬ b = true) : b = false := by
  cases b
  · rfl
  · exact absurd rfl h

/-- Every inserted message row carries the session id it was inserted
under. -/
theorem toMsgRow_session (depths : List (String × Nat)) (sid pp cf : String)
    (r : MsgRow) (ms : List PMsg) (hr : r ∈ ms.map (toMsgRow depths sid pp cf)) :
    r.session_id = sid := by
  rcases List.mem_map.mp hr with ⟨m, _, hm⟩
  rw [← hm]
  rfl

/-- Indexing a session into a store that has no rows for that session id
beyond the session's own freshly inserted rows reproduces the same
state: the second call deletes exactly the rows the first call inserted
and re-inserts them. -/
theorem index_cons_replace (A : List ConvRow) (B : List MsgRow)
    (pp cf : String) (meta : Option ConvMeta) (m0 : PMsg) (rest : List PMsg)
    (sid : String) (hs : optTruthy m0.session_id = some sid)
    (hnoA : ∀ c ∈ A, (c.session_id == sid) = false)
    (hnoB : ∀ r ∈ B, (r.session_id == sid) = false) :
    index_conversation
      { conversations := A ++ [mkConvRow pp cf meta m0 rest sid],
        messages := B ++ (m0 :: rest).map
          (toMsgRow (calculate_depth (m0 :: rest)) sid pp cf) }
      pp cf meta (m0 :: rest) =
      { conversations := A ++ [mkConvRow pp cf meta m0 rest sid],
        messages := B ++ (m0 :: rest).map
          (toMsgRow (calculate_depth (m0 :: rest)) sid pp cf) } := by
  rw [index_conversation_cons _ pp cf meta m0 rest sid hs]
  have hany : ((A ++ [mkConvRow pp cf meta m0 rest sid]).any
      (fun c => c.session_id == sid)) = true :=
    List.any_eq_true.mpr
      ⟨mkConvRow pp cf meta m0 rest sid,
        List.mem_append_right A (List.mem_singleton.mpr rfl),
        beq_self_eq_true sid⟩
  have hfA : (A ++ [mkConvRow pp cf meta m0 rest sid]).filter
      (fun c => !(c.session_id == sid)) = A := by
    rw [List.filter_append]
    have h1 : A.filter (fun c => !(c.session_id == sid)) = A :=
      List.filter_eq_self.mpr (fun a ha => by rw [hnoA a ha]; rfl)
    have h2 : ([mkConvRow pp cf meta m0 rest sid]).filter
        (fun c => !(c.session_id == sid)) = [] := by
      have hcr : (mkConvRow pp cf meta m0 rest sid).session_id = sid := rfl
      simp [List.filter, hcr]
    rw [h1, h2, List.append_nil]
  have hfB : (B ++ (m0 :: rest).map
      (toMsgRow (calculate_depth (m0 :: rest)) sid pp cf)).filter
      (fun r => !(r.session_id == sid)) = B := by
    rw [List.filter_append]
    have h1 : B.filter (fun r => !(r.session_id == sid)) = B :=
      List.filter_eq_self.mpr (fun a ha => by rw [hnoB a ha]; rfl)
    have h2 : ((m0 :: rest).map
        (toMsgRow (calculate_depth (m0 :: rest)) sid pp cf)).filter
        (fun r => !(r.session_id == sid)) = [] := by
      apply List.filter_eq_nil_iff.mpr
      intro r hr
      have := toMsgRow_session _ _ _ _ r _ hr
      simp [this]
    rw [h1, h2, List.append_nil]
  simp only [hany, if_true, hfA, hfB]

/-- C1: indexing the same parsed file twice in succession (with AI
summarization disabled) leaves exactly the row set of the first call:
the second call deletes the session's rows and re-inserts an identical
set.  The hypothesis states the store invariant that message rows only
exist for sessions that have a conversation row (which every
`index_conversation` write preserves, since it always inserts both). -/
theorem c1_index_idempotent (db : DBState) (pp cf : String)
    (meta : Option ConvMeta) (msgs : List PMsg)
    (hwf : ∀ r ∈ db.messages, ∃ c ∈ db.conversations, c.session_id = r.session_id) :
    index_conversation (index_conversation db pp cf meta msgs) pp cf meta msgs =
      index_conversation db pp cf meta msgs := by
  cases msgs with
  | nil => rfl
  | cons m0 rest =>
    cases hs : optTruthy m0.session_id with
    | none => simp only [index_conversation, hs]
    | some sid =>
      rw [index_conversation_cons db pp cf meta m0 rest sid hs]
      apply index_cons_replace _ _ pp cf meta m0 rest sid hs
      · intro c hc
        by_cases hex : db.conversations.any (fun c => c.session_id == sid)
        · rw [if_pos hex] at hc
          have := List.of_mem_filter hc
          simpa using this
        · rw [if_neg hex] at hc
          have hf := bool_eq_false hex
          rcases h2 : (c.session_id == sid) with _ | _
          · rfl
          · exact absurd (List.any_eq_true.mpr ⟨c, hc, h2⟩) hex
      · intro r hr
        by_cases hex : db.conversations.any (fun c => c.session_id == sid)
        · rw [if_pos hex] at hr
          have := List.of_mem_filter hr
          simpa using this
        · rw [if_neg hex] at hr
          rcases h2 : (r.session_id == sid) with _ | _
          · rfl
          · exfalso
            rcases hwf r hr with ⟨c, hcmem, hcsid⟩
            apply hex
            refine List.any_eq_true.mpr ⟨c, hcmem, ?_⟩
            rw [hcsid, eq_of_beq h2]
            exact beq_self_eq_true sid

/-- A second message of the same session, for the C1 witness. -/
def mB0 : PMsg :=
  { uuid := "B", parent_uuid := some "A", session_id := some "S",
    timestamp := some "t2", content := "world" }

/-- Witness for C1: indexing the two-message session twice over the empty
store yields the same state as indexing it once. -/
theorem c1_index_idempotent_witness :
    (∀ r ∈ dbEmpty.messages, ∃ c ∈ dbEmpty.conversations,
      c.session_id = r.session_id) ∧
    index_conversation (index_conversation dbEmpty "p" "f" none [mA0, mB0])
        "p" "f" none [mA0, mB0] =
      index_conversation dbEmpty "p" "f" none [mA0, mB0] :=
  ⟨by simp [dbEmpty],
   c1_index_idempotent dbEmpty "p" "f" none [mA0, mB0] (by simp [dbEmpty])⟩

/-- Witness for C4 at a metadata-free file. -/
theorem c4_summary_default_witness :
    optTruthy mA0.session_id = some "S" ∧
    ∃ cr, (index_conversation dbEmpty "p" "f" none [mA0]).conversations.getLast?
        = some cr ∧
      ((none : Option ConvMeta) = none → cr.conversation_summary = none) ∧
      (∀ cm : ConvMeta, (none : Option ConvMeta) = some cm → cm.summary = none →
        cr.conversation_summary = some "Untitled conversation") ∧
      (∀ cm : ConvMeta, ∀ s, (none : Option ConvMeta) = some cm →
        cm.summary = some s → cr.conversation_summary = some s) :=
  ⟨by decide, c4_summary_default dbEmpty "p" "f" none mA0 [] "S" (by decide)⟩

/-! ## Summarizer batches (src/src/summarization.py, watcher.py lines 200-218) -/

/-- An unsummarized-message dict as collected by
`ConversationWatcher.get_unsummarized_messages` (watcher.py lines 95-100). -/
structure WMsg where
  uuid : String
  message_type : String := "user"
  content : String := ""
  timestamp : Option String := none
  deriving DecidableEq, Repr

/-- One `{uuid, summary}` element of the summarizer's parsed reply;
either key may be absent (or its value empty), which
`update_database` skips. -/
structure SPair where
  uuid : Option String := none
  summary : Option String := none
  deriving DecidableEq, Repr

/-- Outcome of one external summarizer subprocess invocation (the CLI is
an external collaborator, spec §3/§6): a parsed list of pairs, or an
outright failure (timeout, malformed JSON, non-zero exit status). -/
inductive BatchOutcome
  | ok (pairs : List SPair)
  | failure
  deriving DecidableEq, Repr

/-- `MessageSummarizer.summarize_batch` (summarization.py lines 125-199):
empty input short-circuits to `[]`; every failure path (timeout, JSON
decode error, non-zero return code, missing braces) returns `[]`;
otherwise the parsed `summaries` list is returned as-is. -/
def summarize_batch (msgs : List WMsg) (o : BatchOutcome) : List SPair :=
  if msgs.isEmpty then []
  else
    match o with
    | .ok pairs => pairs
    | .failure => []

/-- The UPDATE of one row by one `{uuid, summary}` pair
(summarization.py lines 215-219). -/
def update_one (u s : String) (r : MsgRow) : MsgRow :=
  if r.message_uuid == u then
    { r with summary := s, is_summarized := true,
             summary_method := some "ai_generated" }
  else r

/-- `MessageSummarizer.update_database` (summarization.py lines 201-227):
apply each pair in order, skipping pairs with a falsy uuid or summary,
and count the pairs whose UPDATE matched at least one row. -/
def update_database : List MsgRow → List SPair → List MsgRow × Nat
  | db, [] => (db, 0)
  | db, sd :: rest =>
    match optTruthy sd.uuid, optTruthy sd.summary with
    | some u, some s =>
      let db2 := db.map (update_one u s)
      let next := update_database db2 rest
      (next.1, (if db.any (fun r => r.message_uuid == u) then 1 else 0) + next.2)
    | _, _ => update_database db rest

/-- Slicing `all_unsummarized[i:i+20]` for `i in range(0, len, 20)`
(watcher.py lines 202-205), as a structural recursion: `cap` is the
remaining capacity of the chunk being filled (initially 20), `acc` the
chunk so far, reversed. -/
def chunksAux : Nat → List WMsg → List WMsg → List (List WMsg)
  | _, acc, [] => if acc.isEmpty then [] else [acc.reverse]
  | 0, acc, x :: xs => acc.reverse :: chunksAux 19 [x] xs
  | cap + 1, acc, x :: xs => chunksAux cap (x :: acc) xs

/-- The batches of 20 into which a processing pass slices the pending
messages. -/
def chunksOf20 (l : List WMsg) : List (List WMsg) := chunksAux 20 [] l

/-- The batch-summarization loop of `ConversationWatcher.process_pending`
(watcher.py lines 200-218): call the summarizer once per batch, apply
`update_database` only when the reply is non-empty, and accumulate the
updated-row count.  `oc i` is the outcome of the `i`-th summarizer
call; the returned first component is the log of batches actually
submitted. -/
def process_batches : List (List WMsg) → (Nat → BatchOutcome) → Nat →
    List MsgRow → List (List WMsg) × List MsgRow × Nat
  | [], _, _, db => ([], db, 0)
  | b :: bs, oc, i, db =>
    let summaries := summarize_batch b (oc i)
    let step := if summaries.isEmpty then (db, 0) else update_database db summaries
    let next := process_batches bs oc (i + 1) step.1
    (b :: next.1, next.2.1, step.2 + next.2.2)

/-- One pass of step 2 of `process_pending` over the collected
unsummarized messages. -/
def process_pending_batches (db : List MsgRow) (pend : List WMsg)
    (oc : Nat → BatchOutcome) : List (List WMsg) × List MsgRow × Nat :=
  process_batches (chunksOf20 pend) oc 0 db

theorem process_batches_log (bs : List (List WMsg)) (oc : Nat → BatchOutcome)
    (i : Nat) (db : List MsgRow) : (process_batches bs oc i db).1 = bs := by
  induction bs generalizing i db with
  | nil => rfl
  | cons b bs ih => simpa [process_batches] using ih (i + 1) _

theorem process_batches_all_empty (bs : List (List WMsg))
    (oc : Nat → BatchOutcome) (i : Nat) (db : List MsgRow)
    (h : ∀ j, summarize_batch (bs.getD j []) (oc (i + j)) = []) :
    (process_batches bs oc i db).2 = (db, 0) := by
  induction bs generalizing i db with
  | nil => rfl
  | cons b bs ih =>
    have h0 : summarize_batch b (oc i) = [] := by
      have := h 0
      simpa using this
    have hrest : ∀ j, summarize_batch (bs.getD j []) (oc (i + 1 + j)) = [] := by
      intro j
      have := h (j + 1)
      simpa [Nat.add_comm, Nat.add_assoc, Nat.add_left_comm] using this
    simp [process_batches, h0, ih (i + 1) db hrest]

theorem update_database_untouched (db : List MsgRow) (pairs : List SPair)
    (r : MsgRow) (hr : r ∈ db)
    (h : ∀ p ∈ pairs, optTruthy p.uuid ≠ some r.message_uuid) :
    r ∈ (update_database db pairs).1 := by
  induction pairs generalizing db with
  | nil => exact hr
  | cons sd rest ih =>
    match hu : optTruthy sd.uuid, hs : optTruthy sd.summary with
    | some u, some s =>
      have hne : u ≠ r.message_uuid := by
        intro he
        exact h sd (List.mem_cons_self sd rest) (by rw [hu, he])
      have hfix : update_one u s r = r := by
        unfold update_one
        have : (r.message_uuid == u) = false :=
          beq_eq_false_iff_ne.mpr (fun he => hne he.symm)
        rw [this]
        simp
      have hr2 : r ∈ db.map (update_one u s) := by
        rw [← hfix]
        exact List.mem_map_of_mem _ hr
      have := ih (db.map (update_one u s)) hr2
        (fun p hp => h p (List.mem_cons_of_mem sd hp))
      simpa [update_database, hu, hs] using this
    | some u, none =>
      have := ih db hr (fun p hp => h p (List.mem_cons_of_mem sd hp))
      simpa [update_database, hu, hs] using this
    | none, _ =>
      have := ih db hr (fun p hp => h p (List.mem_cons_of_mem sd hp))
      simpa [update_database, hu] using this

theorem update_database_named (db : List MsgRow) (pairs : List SPair)
    (r2 : MsgRow) (hr2 : r2 ∈ (update_database db pairs).1) :
    r2 ∈ db ∨ ∃ p ∈ pairs, optTruthy p.uuid = some r2.message_uuid := by
  induction pairs generalizing db with
  | nil => exact Or.inl hr2
  | cons sd rest ih =>
    match hu : optTruthy sd.uuid, hs : optTruthy sd.summary with
    | some u, some s =>
      rw [update_database] at hr2
      simp only [hu, hs] at hr2
      rcases ih (db.map (update_one u s)) hr2 with hmem | ⟨p, hp, hpu⟩
      · rcases List.mem_map.mp hmem with ⟨r, hrdb, hru⟩
        by_cases hbeq : (r.message_uuid == u) = true
        · by_cases hchanged : update_one u s r = r
          · left; rw [← hru, hchanged]; exact hrdb
          · right
            refine ⟨sd, List.mem_cons_self sd rest, ?_⟩
            rw [hu]
            have : r2.message_uuid = r.message_uuid := by
              rw [← hru]
              unfold update_one
              rw [hbeq]
              simp
            rw [this, eq_of_beq hbeq]
        · left
          rw [← hru]
          unfold update_one
          rw [if_neg hbeq]
          exact hrdb
      · exact Or.inr ⟨p, List.mem_cons_of_mem sd hp, hpu⟩
    | some u, none =>
      rw [update_database] at hr2
      simp only [hu, hs] at hr2
      rcases ih db hr2 with hmem | ⟨p, hp, hpu⟩
      · exact Or.inl hmem
      · exact Or.inr ⟨p, List.mem_cons_of_mem sd hp, hpu⟩
    | none, _ =>
      rw [update_database] at hr2
      simp only [hu] at hr2
      rcases ih db hr2 with hmem | ⟨p, hp, hpu⟩
      · exact Or.inl hmem
      · exact Or.inr ⟨p, List.mem_cons_of_mem sd hp, hpu⟩

/-- C8: every batch is submitted exactly once per pass (the submission
log is exactly the chunk list — no retry); a pass all of whose
summarizer calls fail or come back empty applies zero updates and
leaves the store untouched; a failed call yields no pairs; applying a
pair list touches only rows named by some pair's uuid, leaving every
unnamed row in place, and the empty pair list changes nothing and
reports zero. -/
theorem c8_batch_failure_isolation :
    (∀ db pend oc, (process_pending_batches db pend oc).1 = chunksOf20 pend) ∧
    (∀ msgs, summarize_batch msgs .failure = []) ∧
    (∀ db, update_database db [] = (db, 0)) ∧
    (∀ db pend oc, (∀ i, oc i = BatchOutcome.failure ∨ oc i = BatchOutcome.ok []) →
      (process_pending_batches db pend oc).2 = (db, 0)) ∧
    (∀ db pairs r, r ∈ db →
      (∀ p ∈ pairs, optTruthy p.uuid ≠ some r.message_uuid) →
      r ∈ (update_database db pairs).1) ∧
    (∀ db pairs r2, r2 ∈ (update_database db pairs).1 →
      r2 ∈ db ∨ ∃ p ∈ pairs, optTruthy p.uuid = some r2.message_uuid) := by
  refine ⟨?_, ?_, ?_, ?_, ?_, ?_⟩
  · intro db pend oc
    exact process_batches_log _ oc 0 db
  · intro msgs
    unfold summarize_batch
    split <;> rfl
  · intro db
    rfl
  · intro db pend oc h
    apply process_batches_all_empty
    intro j
    rcases h (0 + j) with hf | he
    · rw [hf]
      unfold summarize_batch
      split <;> rfl
    · rw [he]
      unfold summarize_batch
      split <;> rfl
  · intro db pairs r hr h
    exact update_database_untouched db pairs r hr h
  · intro db pairs r2 h
    exact update_database_named db pairs r2 h

/-- Concrete rows for the C8 witness. -/
def dbC8 : List MsgRow :=
  [toMsgRow [] "S" "p" "f" mA0, toMsgRow [] "S" "p" "f" mB0]

/-- Concrete pending messages for the C8 witness. -/
def pendC8 : List WMsg := [{ uuid := "A" }, { uuid := "B" }]

/-- Witness for C8: a pass whose only summarizer call fails submits the
single batch once and updates nothing. -/
theorem c8_batch_failure_isolation_witness :
    (∀ i : Nat, (fun _ => BatchOutcome.failure) i = BatchOutcome.failure ∨
      (fun _ => BatchOutcome.failure) i = BatchOutcome.ok []) ∧
    (process_pending_batches dbC8 pendC8 (fun _ => BatchOutcome.failure)).2
      = (dbC8, 0) ∧
    (process_pending_batches dbC8 pendC8 (fun _ => BatchOutcome.failure)).1
      = chunksOf20 pendC8 :=
  ⟨fun _ => Or.inl rfl,
   c8_batch_failure_isolation.2.2.2.1 dbC8 pendC8 _ (fun _ => Or.inl rfl),
   c8_batch_failure_isolation.1 dbC8 pendC8 _⟩

/-! ## Watch-debounce coordinator (src/src/claude_finder/core/watcher.py) -/

/-- `ConversationWatcher.idle_threshold` (watcher.py line 30). -/
def idle_threshold : Nat := 30

/-- The coordinator state shared between the event handler and the poll
loop: the pending-file set, the last-change timestamp, and the number
of processing passes run so far. -/
structure WatchState where
  pending : List String
  last_change_time : Nat
  passes : Nat
  deriving DecidableEq, Repr

/-- An observable event: a watched conversation file changing at time
`t` (`on_modified`, already filtered to `.jsonl` non-agent files), or
one iteration of the 5-second poll loop at time `t`. -/
inductive WEvent
  | change (file : String) (t : Nat)
  | tick (t : Nat)
  deriving DecidableEq, Repr

/-- `self.pending_files.add(file_path)`: set insertion. -/
def addPending (l : List String) (f : String) : List String :=
  if l.contains f then l else l ++ [f]

/-- One step of the coordinator.  `change` records the file and updates
the last-change timestamp (watcher.py lines 46-47).  `tick` models one
poll-loop iteration (watcher.py lines 298-302): when pending files
exist and at least `idle_threshold` has elapsed since the last change,
`process_pending` runs — it clears the pending set (line 194) and
counts as one pass; the last-change timestamp is not touched. -/
def wstep (s : WatchState) : WEvent → WatchState
  | .change f t =>
    { s with pending := addPending s.pending f, last_change_time := t }
  | .tick t =>
    if s.pending ≠ [] ∧ s.last_change_time + idle_threshold ≤ t then
      { pending := [], last_change_time := s.last_change_time,
        passes := s.passes + 1 }
    else s

/-- Run the coordinator over a sequence of events. -/
def wrun (s : WatchState) (es : List WEvent) : WatchState := es.foldl wstep s

/-- Event classifiers. -/
def isTick : WEvent → Bool
  | .tick _ => true
  | _ => false

def isChange : WEvent → Bool
  | .change _ _ => true
  | _ => false

/-- The burst lies within one idle window: every tick inside it comes
strictly less than `idle_threshold` after the last change observed so
far. -/
def withinWindow : WatchState → List WEvent → Bool
  | _, [] => true
  | s, .change f t :: es => withinWindow (wstep s (.change f t)) es
  | s, .tick t :: es =>
    decide (t < s.last_change_time + idle_threshold) &&
      withinWindow (wstep s (.tick t)) es

/-- Unfolding one event of a run. -/
theorem wrun_cons (s : WatchState) (e : WEvent) (es : List WEvent) :
    wrun s (e :: es) = wrun (wstep s e) es := rfl

/-- The tick equation of `wstep`. -/
theorem wstep_tick (s : WatchState) (t : Nat) :
    wstep s (.tick t) =
      if s.pending ≠ [] ∧ s.last_change_time + idle_threshold ≤ t then
        { pending := [], last_change_time := s.last_change_time,
          passes := s.passes + 1 }
      else s := rfl

/-- A tick that arrives within the idle window does not fire a pass. -/
theorem wstep_tick_early (s : WatchState) (t : Nat)
    (h : t < s.last_change_time + idle_threshold) :
    wstep s (.tick t) = s := by
  rw [wstep_tick, if_neg]
  rintro ⟨-, h2⟩
  omega

/-- During a within-window burst no pass runs. -/
theorem wrun_window_passes (es : List WEvent) (s : WatchState)
    (h : withinWindow s es = true) :
    (wrun s es).passes = s.passes := by
  induction es generalizing s with
  | nil => rfl
  | cons e es ih =>
    cases e with
    | change f t =>
      rw [withinWindow] at h
      rw [wrun_cons]
      exact ih _ h
    | tick t =>
      rw [withinWindow, Bool.and_eq_true, decide_eq_true_eq] at h
      have h2 := h.2
      rw [wstep_tick_early s t h.1] at h2
      rw [wrun_cons, wstep_tick_early s t h.1]
      exact ih _ h2

/-- During a within-window burst the pending set only grows: files
already pending stay pending, and every changed file ends up pending. -/
theorem wrun_window_pending (es : List WEvent) (s : WatchState) (f : String)
    (h : withinWindow s es = true)
    (hf : f ∈ s.pending ∨ ∃ t, WEvent.change f t ∈ es) :
    f ∈ (wrun s es).pending := by
  induction es generalizing s with
  | nil =>
    rcases hf with hf | ⟨t, ht⟩
    · exact hf
    · exact absurd ht (List.not_mem_nil _)
  | cons e es ih =>
    cases e with
    | change g t =>
      rw [withinWindow] at h
      rw [wrun_cons]
      apply ih _ h
      rcases hf with hf | ⟨u, hu⟩
      · left
        show f ∈ addPending s.pending g
        unfold addPending
        split
        · exact hf
        · exact List.mem_append_left _ hf
      · rcases List.mem_cons.mp hu with he | hrest
        · left
          have : f = g := by
            injection he with h1 h2
          subst this
          show f ∈ addPending s.pending f
          unfold addPending
          split
          · exact List.mem_of_elem_eq_true (by assumption)
          · exact List.mem_append_right _ (List.mem_singleton.mpr rfl)
        · right; exact ⟨u, hrest⟩
    | tick t =>
      rw [withinWindow, Bool.and_eq_true, decide_eq_true_eq] at h
      have h2 := h.2
      rw [wstep_tick_early s t h.1] at h2
      rw [wrun_cons, wstep_tick_early s t h.1]
      apply ih _ h2
      rcases hf with hf | ⟨u, hu⟩
      · exact Or.inl hf
      · rcases List.mem_cons.mp hu with he | hrest
        · cases he
        · exact Or.inr ⟨u, hrest⟩

/-- Ticks never move the last-change timestamp. -/
theorem wrun_ticks_last_change (es : List WEvent) (s : WatchState)
    (h : es.all isTick = true) :
    (wrun s es).last_change_time = s.last_change_time := by
  induction es generalizing s with
  | nil => rfl
  | cons e es ih =>
    cases e with
    | change f t => simp [isTick] at h
    | tick t =>
      rw [List.all_cons, Bool.and_eq_true] at h
      rw [wrun_cons, ih _ h.2, wstep_tick]
      split <;> rfl

/-- With an empty pending set, a tick-only suffix does nothing. -/
theorem wrun_ticks_empty (es : List WEvent) (s : WatchState)
    (h : es.all isTick = true) (hp : s.pending = []) :
    wrun s es = s := by
  induction es generalizing s with
  | nil => rfl
  | cons e es ih =>
    cases e with
    | change f t => simp [isTick] at h
    | tick t =>
      rw [List.all_cons, Bool.and_eq_true] at h
      have hstep : wstep s (.tick t) = s := by
        rw [wstep_tick, if_neg]
        rintro ⟨hne, -⟩
        exact hne hp
      rw [wrun_cons, hstep]
      exact ih _ h.2 hp

/-- Over a tick-only suffix with pending files, exactly one pass runs
iff some tick arrives at or after `last_change_time + idle_threshold`;
the pass clears the pending set. -/
theorem wrun_ticks_fire (es : List WEvent) (s : WatchState)
    (hall : es.all isTick = true) (hp : s.pending ≠ []) :
    (wrun s es).passes =
      s.passes + (if es.any (fun e => match e with
        | .tick t => decide (s.last_change_time + idle_threshold ≤ t)
        | _ => false) then 1 else 0) ∧
    ((es.any (fun e => match e with
        | .tick t => decide (s.last_change_time + idle_threshold ≤ t)
        | _ => false)) = true → (wrun s es).pending = []) := by
  induction es generalizing s with
  | nil => simp [wrun]
  | cons e es ih =>
    cases e with
    | change f t => simp [isTick] at hall
    | tick t =>
      rw [List.all_cons, Bool.and_eq_true] at hall
      by_cases hfire : s.last_change_time + idle_threshold ≤ t
      · have hstep : wstep s (.tick t) =
            { pending := [], last_change_time := s.last_change_time,
              passes := s.passes + 1 } := by
          rw [wstep_tick, if_pos ⟨hp, hfire⟩]
        have hrest := wrun_ticks_empty es
          { pending := [], last_change_time := s.last_change_time,
            passes := s.passes + 1 } hall.2 rfl
        constructor
        · rw [wrun_cons, hstep, hrest]
          simp [List.any_cons, hfire]
        · intro _
          rw [wrun_cons, hstep, hrest]
      · have hstep : wstep s (.tick t) = s := by
          rw [wstep_tick, if_neg]
          rintro ⟨-, h2⟩
          exact hfire h2
        have := ih s hall.2 hp
        constructor
        · rw [wrun_cons, hstep, this.1]
          simp [List.any_cons, hfire]
        · intro hany
          rw [wrun_cons, hstep]
          apply this.2
          simp only [List.any_cons, Bool.or_eq_true] at hany
          rcases hany with hh | ht
          · exact absurd (of_decide_eq_true hh) hfire
          · exact ht

/-- C9: a burst of change events (with any interleaved poll ticks)
arriving within one idle window triggers no pass and leaves the
changed files pending; over the following tick-only quiet period the
coordinator runs exactly one pass if some tick arrives at least
`idle_threshold` after the last change, and none otherwise — never one
per change event; the pass empties the pending set; and the last-change
timestamp the quiet period is measured from is the time of the last
change of the burst. -/
theorem c9_debounce (s0 : WatchState) (burst quiet : List WEvent)
    (hchange : burst.any isChange = true)
    (hwin : withinWindow s0 burst = true)
    (hquiet : quiet.all isTick = true) :
    (wrun s0 burst).passes = s0.passes ∧
    (wrun s0 burst).pending ≠ [] ∧
    (wrun s0 (burst ++ quiet)).passes =
      s0.passes + (if quiet.any (fun e => match e with
        | .tick t => decide
            ((wrun s0 burst).last_change_time + idle_threshold ≤ t)
        | _ => false) then 1 else 0) ∧
    ((quiet.any (fun e => match e with
        | .tick t => decide
            ((wrun s0 burst).last_change_time + idle_threshold ≤ t)
        | _ => false)) = true → (wrun s0 (burst ++ quiet)).pending = []) ∧
    (∀ xs f t ys, burst = xs ++ WEvent.change f t :: ys →
      ys.all isTick = true → (wrun s0 burst).last_change_time = t) := by
  have hpend : (wrun s0 burst).pending ≠ [] := by
    rcases List.any_eq_true.mp hchange with ⟨e, he, hc⟩
    cases e with
    | tick t => simp [isChange] at hc
    | change f t =>
      have : f ∈ (wrun s0 burst).pending :=
        wrun_window_pending burst s0 f hwin (Or.inr ⟨t, he⟩)
      intro hnil
      rw [hnil] at this
      exact List.not_mem_nil f this
  have happ : wrun s0 (burst ++ quiet) = wrun (wrun s0 burst) quiet := by
    simp [wrun, List.foldl_append]
  have hfire := wrun_ticks_fire quiet (wrun s0 burst) hquiet hpend
  refine ⟨wrun_window_passes burst s0 hwin, hpend, ?_, ?_, ?_⟩
  · rw [happ, hfire.1, wrun_window_passes burst s0 hwin]
  · intro hany
    rw [happ]
    exact hfire.2 hany
  · intro xs f t ys hb hys
    rw [hb]
    show (wrun s0 (xs ++ WEvent.change f t :: ys)).last_change_time = t
    have : wrun s0 (xs ++ WEvent.change f t :: ys) =
        wrun (wstep (wrun s0 xs) (WEvent.change f t)) ys := by
      simp [wrun, List.foldl_append]
    rw [this, wrun_ticks_last_change ys _ hys]
    rfl

/-! ## Query engine: conversation tree (src/src/search.py lines 212-226) -/

/-- The uuids of a row list. -/
def rowUuids (rows : List MsgRow) : List String :=
  rows.map (fun r => r.message_uuid)

/-- The attachment test of `_build_tree` (search.py line 221): the
parent reference is truthy (`if parent_uuid`) and resolves in the map
(`parent_uuid in msg_map`). -/
def attachedB (rows : List MsgRow) (r : MsgRow) : Bool :=
  match r.parent_uuid with
  | none => false
  | some p => !p.isEmpty && rows.any (fun m => m.message_uuid == p)

/-- The children a node collects (search.py line 222): the rows that
name it as parent and pass the attachment test, in list order (Python
appends while iterating the map values in insertion order). -/
def childrenRows (rows : List MsgRow) (u : String) : List MsgRow :=
  rows.filter (fun m => attachedB rows m && (m.parent_uuid == some u))

/-- A node of the tree `_build_tree` returns: the row plus its nested
children. -/
inductive TNode where
  | mk (row : MsgRow) (children : List TNode)

/-- The row carried by a node. -/
def TNode.row : TNode → MsgRow
  | .mk r _ => r

/-- The children list of a node. -/
def TNode.children : TNode → List TNode
  | .mk _ c => c

/-- Recursive reconstruction of the node for row `r`, with fuel standing
in for the reference-graph sharing of the Python dicts; `build_tree`
supplies fuel that provably suffices for acyclic inputs. -/
def buildNode (rows : List MsgRow) : Nat → MsgRow → TNode
  | 0, r => .mk r []
  | fuel + 1, r =>
    .mk r ((childrenRows rows r.message_uuid).map (buildNode rows fuel))

/-- `ConversationSearch._build_tree` (search.py lines 212-226): the list
of root nodes (rows whose parent reference is falsy or unresolvable),
each carrying its nested children. -/
def build_tree (rows : List MsgRow) : List TNode :=
  (rows.filter (fun r => !attachedB rows r)).map (buildNode rows rows.length)

mutual
/-- All rows of a node, depth first. -/
def flattenNode : TNode → List MsgRow
  | .mk r cs => r :: flattenForest cs
/-- All rows of a forest, depth first. -/
def flattenForest : List TNode → List MsgRow
  | [] => []
  | t :: ts => flattenNode t ++ flattenForest ts
end

/-- `TreeRootedN rows u n`: the attachment chain upward from uuid `u`
reaches a root (falsy or unresolvable parent) in `n` steps.  The claim's
acyclicity hypothesis is stated as every row being rooted. -/
inductive TreeRootedN (rows : List MsgRow) : String → Nat → Prop
  | root (r : MsgRow) (hr : r ∈ rows) (h : attachedB rows r = false) :
      TreeRootedN rows r.message_uuid 0
  | child (r : MsgRow) (p : String) (n : Nat) (hr : r ∈ rows)
      (hp : r.parent_uuid = some p) (hatt : attachedB rows r = true)
      (h : TreeRootedN rows p n) : TreeRootedN rows r.message_uuid (n + 1)

/-- `TDescN rows a x k`: uuid `x` lies `k` attachment steps below uuid
`a`. -/
inductive TDescN (rows : List MsgRow) : String → String → Nat → Prop
  | refl (u : String) : TDescN rows u u 0
  | child (m : MsgRow) (a p : String) (k : Nat) (hm : m ∈ rows)
      (hp : m.parent_uuid = some p) (hatt : attachedB rows m = true)
      (h : TDescN rows a p k) : TDescN rows a m.message_uuid (k + 1)

/-- Two rows of a nodup-uuid list with the same uuid coincide. -/
theorem ruuid_inj {rows : List MsgRow} (hnd : (rowUuids rows).Nodup)
    {m p : MsgRow} (hm : m ∈ rows) (hp : p ∈ rows)
    (h : m.message_uuid = p.message_uuid) : m = p :=
  List.inj_on_of_nodup_map hnd hm hp h

theorem buildNode_row (rows : List MsgRow) (fuel : Nat) (r : MsgRow) :
    (buildNode rows fuel r).row = r := by
  cases fuel <;> rfl

theorem buildNode_children (rows : List MsgRow) (fuel : Nat) (r : MsgRow) :
    (buildNode rows (fuel + 1) r).children.map TNode.row
      = childrenRows rows r.message_uuid := by
  show ((childrenRows rows r.message_uuid).map (buildNode rows fuel)).map
      TNode.row = childrenRows rows r.message_uuid
  rw [List.map_map]
  have : TNode.row ∘ buildNode rows fuel = id := by
    funext m
    exact buildNode_row rows fuel m
  rw [this, List.map_id]

theorem childrenRows_mem {rows : List MsgRow} {u : String} {m : MsgRow} :
    m ∈ childrenRows rows u ↔
      m ∈ rows ∧ attachedB rows m = true ∧ m.parent_uuid = some u := by
  unfold childrenRows
  rw [List.mem_filter]
  simp only [Bool.and_eq_true, beq_iff_eq]
  try tauto

theorem flattenForest_count (x : MsgRow) (ts : List TNode) :
    (flattenForest ts).count x = (ts.map (fun t => (flattenNode t).count x)).sum := by
  induction ts with
  | nil => rfl
  | cons t ts ih =>
    show ((flattenNode t ++ flattenForest ts).count x) = _
    rw [List.count_append, ih]
    rfl

theorem sum_map_zero {α : Type} {l : List α} {f : α → Nat}
    (h : ∀ m ∈ l, f m = 0) : (l.map f).sum = 0 := by
  induction l with
  | nil => rfl
  | cons a l ih =>
    rw [List.map_cons, List.sum_cons, h a (List.mem_cons_self a l),
      ih (fun m hm => h m (List.mem_cons_of_mem a hm))]

theorem sum_map_one {α : Type} [DecidableEq α] {l : List α} {f : α → Nat}
    {m : α} (hnd : l.Nodup) (hm : m ∈ l) (h1 : f m = 1)
    (h0 : ∀ m2 ∈ l, m2 ≠ m → f m2 = 0) : (l.map f).sum = 1 := by
  induction l with
  | nil => exact absurd hm (List.not_mem_nil m)
  | cons a l ih =>
    rw [List.nodup_cons] at hnd
    rw [List.map_cons, List.sum_cons]
    rcases List.mem_cons.mp hm with rfl | hml
    · have hz : (l.map f).sum = 0 :=
        sum_map_zero (fun m2 hm2 =>
          h0 m2 (List.mem_cons_of_mem _ hm2) (fun he => hnd.1 (he ▸ hm2)))
      rw [h1, hz]
    · have ha : f a = 0 := h0 a (List.mem_cons_self a l) (fun he => hnd.1 (he ▸ hml))
      have hs := ih hnd.2 hml
        (fun m2 hm2 hne => h0 m2 (List.mem_cons_of_mem a hm2) hne)
      rw [ha, hs]

theorem rootedN_invert {rows : List MsgRow} {x : String} {n : Nat}
    (h : TreeRootedN rows x n) (hnd : (rowUuids rows).Nodup)
    {xr : MsgRow} (hxr : xr ∈ rows) (hx : x = xr.message_uuid) :
    (attachedB rows xr = false ∧ n = 0) ∨
    (∃ p k, xr.parent_uuid = some p ∧ attachedB rows xr = true ∧
      TreeRootedN rows p k ∧ n = k + 1) := by
  cases h with
  | root r hr hroot =>
    have he : r = xr := ruuid_inj hnd hr hxr hx
    subst he
    exact Or.inl ⟨hroot, rfl⟩
  | child r p k hr hp hatt hk =>
    have he : r = xr := ruuid_inj hnd hr hxr hx
    subst he
    exact Or.inr ⟨p, k, hp, hatt, hk, rfl⟩

theorem rootedN_unique {rows : List MsgRow} (hnd : (rowUuids rows).Nodup)
    {u : String} {n n2 : Nat} (h1 : TreeRootedN rows u n)
    (h2 : TreeRootedN rows u n2) : n = n2 := by
  induction h1 generalizing n2 with
  | root r hr hroot =>
    rcases rootedN_invert h2 hnd hr rfl with ⟨-, h0⟩ | ⟨p, k, -, hatt, -, -⟩
    · exact h0.symm
    · rw [hroot] at hatt
      exact absurd hatt (by simp)
  | child r p k hr hp hatt hk ih =>
    rcases rootedN_invert h2 hnd hr rfl with ⟨hroot2, -⟩ | ⟨p2, k2, hp2, -, hk2, he2⟩
    · rw [hatt] at hroot2
      exact absurd hroot2 (by simp)
    · rw [hp] at hp2
      injection hp2 with hpp
      rw [← hpp] at hk2
      rw [he2, ih hk2]

theorem rank_of_desc {rows : List MsgRow} {a x : String} {k : Nat}
    (h : TDescN rows a x k) {n : Nat} (ha : TreeRootedN rows a n) :
    TreeRootedN rows x (n + k) := by
  induction h with
  | refl u => exact ha
  | child m a p k2 hm hp hatt hsub ih =>
    exact TreeRootedN.child m p (n + k2) hm hp hatt (ih ha)

theorem noCycleN {rows : List MsgRow} (hnd : (rowUuids rows).Nodup)
    {u : String} {n : Nat} (hu : TreeRootedN rows u n) (k : Nat) :
    ¬ TDescN rows u u (k + 1) := by
  intro hd
  have := rank_of_desc hd hu
  have h2 := rootedN_unique hnd hu this
  omega

theorem tdescN_invert {rows : List MsgRow} {a x : String} {k : Nat}
    (h : TDescN rows a x (k + 1)) (hnd : (rowUuids rows).Nodup)
    {xr : MsgRow} (hxr : xr ∈ rows) (hx : x = xr.message_uuid) :
    ∃ p, xr.parent_uuid = some p ∧ attachedB rows xr = true ∧
      TDescN rows a p k := by
  cases h with
  | child m a2 p k2 hm hp hatt hsub =>
    have he : m = xr := ruuid_inj hnd hm hxr hx
    subst he
    exact ⟨p, hp, hatt, hsub⟩

theorem tdescN_inj {rows : List MsgRow} (hnd : (rowUuids rows).Nodup) :
    ∀ (k : Nat) (a b x : String), TDescN rows a x k → TDescN rows b x k →
      a = b := by
  intro k
  induction k with
  | zero =>
    intro a b x h1 h2
    cases h1
    cases h2
    rfl
  | succ k ih =>
    intro a b x h1 h2
    cases h1 with
    | child m a2 p k2 hm hp hatt hsub =>
      rcases tdescN_invert h2 hnd hm rfl with ⟨p2, hp2, -, hsub2⟩
      rw [hp] at hp2
      injection hp2 with hpp
      rw [← hpp] at hsub2
      exact ih _ _ _ hsub hsub2

theorem tdescN_top_extend_aux {rows : List MsgRow} {s x : String} {k : Nat}
    (h : TDescN rows s x k) :
    ∀ {m : MsgRow} {a : String}, s = m.message_uuid → m ∈ rows →
      m.parent_uuid = some a → attachedB rows m = true →
      TDescN rows a x (k + 1) := by
  induction h with
  | refl u =>
    intro m a hs hm hp hatt
    rw [hs]
    exact TDescN.child m a a 0 hm hp hatt (TDescN.refl a)
  | child m2 a2 p k2 hm2 hp2 hatt2 hsub ih =>
    intro m a hs hm hp hatt
    exact TDescN.child m2 a p (k2 + 1) hm2 hp2 hatt2 (ih hs hm hp hatt)

theorem tdescN_top_extend {rows : List MsgRow} {m : MsgRow} {a x : String}
    {k : Nat} (hm : m ∈ rows) (hp : m.parent_uuid = some a)
    (hatt : attachedB rows m = true) (h : TDescN rows m.message_uuid x k) :
    TDescN rows a x (k + 1) :=
  tdescN_top_extend_aux h rfl hm hp hatt

theorem tdescN_decompose {rows : List MsgRow} {a x : String} {k : Nat}
    (h : TDescN rows a x k) :
    (x = a ∧ k = 0) ∨
    ∃ m ∈ rows, m.parent_uuid = some a ∧ attachedB rows m = true ∧
      ∃ k2, TDescN rows m.message_uuid x k2 ∧ k = k2 + 1 := by
  induction h with
  | refl u => exact Or.inl ⟨rfl, rfl⟩
  | child m a2 p k2 hm hp hatt hsub ih =>
    rcases ih with ⟨hpa, hk0⟩ | ⟨m2, hm2, hp2, hatt2, k3, hsub3, hk3⟩
    · subst hpa
      exact Or.inr ⟨m, hm, hp, hatt, 0, TDescN.refl m.message_uuid, by omega⟩
    · exact Or.inr ⟨m2, hm2, hp2, hatt2, k3 + 1,
        TDescN.child m m2.message_uuid p k3 hm hp hatt hsub3, by omega⟩

theorem rootedN_rank_inhabited {rows : List MsgRow} {u : String} {n : Nat}
    (h : TreeRootedN rows u n) :
    ∀ i ≤ n, ∃ v, v ∈ rowUuids rows ∧ TreeRootedN rows v i := by
  induction h with
  | root r hr hroot =>
    intro i hi
    have : i = 0 := Nat.le_zero.mp hi
    subst this
    exact ⟨r.message_uuid, List.mem_map_of_mem _ hr, TreeRootedN.root r hr hroot⟩
  | child r p k hr hp hatt hsub ih =>
    intro i hi
    by_cases hik : i = k + 1
    · subst hik
      exact ⟨r.message_uuid, List.mem_map_of_mem _ hr,
        TreeRootedN.child r p k hr hp hatt hsub⟩
    · exact ih i (by omega)

theorem rootedN_bound {rows : List MsgRow} (hnd : (rowUuids rows).Nodup)
    {u : String} {n : Nat} (h : TreeRootedN rows u n) : n < rows.length := by
  classical
  have hinh := rootedN_rank_inhabited h
  let f : Nat → String := fun i =>
    if hi : i ≤ n then (hinh i hi).choose else ""
  have hmap : ∀ i ∈ Finset.range (n + 1), f i ∈ (rowUuids rows).toFinset := by
    intro i hi
    rw [Finset.mem_range] at hi
    have hle : i ≤ n := by omega
    show (if hi2 : i ≤ n then (hinh i hi2).choose else "") ∈ _
    rw [dif_pos hle, List.mem_toFinset]
    exact (hinh i hle).choose_spec.1
  have hinj : Set.InjOn f (Finset.range (n + 1)) := by
    intro i hi j hj hij
    rw [Finset.coe_range, Set.mem_Iio] at hi hj
    have hli : i ≤ n := by omega
    have hlj : j ≤ n := by omega
    have hfi : f i = (hinh i hli).choose := dif_pos hli
    have hfj : f j = (hinh j hlj).choose := dif_pos hlj
    have hri := (hinh i hli).choose_spec.2
    have hrj := (hinh j hlj).choose_spec.2
    rw [hfi, hfj] at hij
    rw [hij] at hri
    exact rootedN_unique hnd hri hrj
  have hcard := Finset.card_le_card_of_injOn f hmap hinj
  rw [Finset.card_range] at hcard
  have h2 : (rowUuids rows).toFinset.card ≤ (rowUuids rows).length :=
    List.toFinset_card_le _
  have h3 : (rowUuids rows).length = rows.length := by
    simp [rowUuids]
  omega

theorem rootedN_to_desc {rows : List MsgRow} {x : String} {n : Nat}
    (h : TreeRootedN rows x n) :
    ∃ r0 ∈ rows, attachedB rows r0 = false ∧
      TDescN rows r0.message_uuid x n := by
  induction h with
  | root r hr hroot => exact ⟨r, hr, hroot, TDescN.refl r.message_uuid⟩
  | child r p k hr hp hatt hsub ih =>
    rcases ih with ⟨r0, hr0, hatt0, hdesc⟩
    exact ⟨r0, hr0, hatt0, TDescN.child r r0.message_uuid p k hr hp hatt hdesc⟩

theorem childrenRows_nodup {rows : List MsgRow} (hnd : (rowUuids rows).Nodup)
    (u : String) : (childrenRows rows u).Nodup :=
  List.Nodup.filter _ (List.Nodup.of_map _ hnd)

theorem flattenForest_mem {ts : List TNode} {e : MsgRow}
    (h : e ∈ flattenForest ts) : ∃ t ∈ ts, e ∈ flattenNode t := by
  induction ts with
  | nil => exact absurd h (List.not_mem_nil e)
  | cons t ts ih =>
    have h2 : e ∈ flattenNode t ++ flattenForest ts := h
    rcases List.mem_append.mp h2 with hl | hr
    · exact ⟨t, List.mem_cons_self t ts, hl⟩
    · rcases ih hr with ⟨t2, ht2, het2⟩
      exact ⟨t2, List.mem_cons_of_mem t ht2, het2⟩

theorem flattenNode_subset {rows : List MsgRow} :
    ∀ (fuel : Nat) (r : MsgRow), r ∈ rows →
      ∀ e ∈ flattenNode (buildNode rows fuel r), e ∈ rows := by
  intro fuel
  induction fuel with
  | zero =>
    intro r hr e he
    have h2 : e ∈ [r] := he
    rw [List.mem_singleton.mp h2]
    exact hr
  | succ f ih =>
    intro r hr e he
    have h2 : e ∈ r :: flattenForest
        ((childrenRows rows r.message_uuid).map (buildNode rows f)) := he
    rcases List.mem_cons.mp h2 with rfl | hrest
    · exact hr
    · rcases flattenForest_mem hrest with ⟨t, ht, het⟩
      rcases List.mem_map.mp ht with ⟨m, hmc, hmt⟩
      rw [← hmt] at het
      exact ih m (childrenRows_mem.mp hmc).1 e het

theorem tdescN_zero {rows : List MsgRow} {a x : String}
    (h : TDescN rows a x 0) : x = a := by
  cases h
  rfl

/-- Core counting lemma: within the subtree reconstructed for `r`, a
row `x` occurs exactly once when `x` descends from `r` within the fuel
bound, and never otherwise. -/
theorem count_subtree {rows : List MsgRow} (hnd : (rowUuids rows).Nodup)
    (hroot : ∀ r ∈ rows, ∃ n, TreeRootedN rows r.message_uuid n) :
    ∀ (fuel : Nat) (r x : MsgRow), r ∈ rows → x ∈ rows →
      ((∃ k, k ≤ fuel ∧ TDescN rows r.message_uuid x.message_uuid k) →
        (flattenNode (buildNode rows fuel r)).count x = 1) ∧
      ((¬ ∃ k, k ≤ fuel ∧ TDescN rows r.message_uuid x.message_uuid k) →
        (flattenNode (buildNode rows fuel r)).count x = 0) := by
  intro fuel
  induction fuel with
  | zero =>
    intro r x hr hx
    have hflat : flattenNode (buildNode rows 0 r) = [r] := rfl
    rw [hflat]
    constructor
    · rintro ⟨k, hk, hdesc⟩
      have hk0 : k = 0 := Nat.le_zero.mp hk
      subst hk0
      have hxr : x = r := ruuid_inj hnd hx hr (tdescN_zero hdesc)
      subst hxr
      simp [List.count_singleton']
    · intro hne
      have hrx : ¬ (r = x) := by
        intro he
        subst he
        exact hne ⟨0, Nat.le_refl 0, TDescN.refl r.message_uuid⟩
      rw [List.count_singleton']
      simp [hrx]
  | succ f ih =>
    intro r x hr hx
    have hflat : (flattenNode (buildNode rows (f + 1) r)).count x
        = (((childrenRows rows r.message_uuid).map (buildNode rows f)).map
            (fun t => (flattenNode t).count x)).sum
          + (if r = x then 1 else 0) := by
      show (r :: flattenForest
          ((childrenRows rows r.message_uuid).map (buildNode rows f))).count x = _
      rw [List.count_cons, flattenForest_count]
      congr 1
      by_cases h : r = x <;> simp [h]
    rw [hflat, List.map_map]
    have hchild : ∀ m ∈ childrenRows rows r.message_uuid,
        m ∈ rows ∧ attachedB rows m = true ∧
          m.parent_uuid = some r.message_uuid := fun m hm => childrenRows_mem.mp hm
    constructor
    · rintro ⟨k, hk, hdesc⟩
      rcases tdescN_decompose hdesc with ⟨hxa, -⟩ | ⟨m, hm, hpm, hattm, k2, hdesc2, hkk⟩
      · have hxr : x = r := ruuid_inj hnd hx hr hxa
        subst hxr
        have hzero : ((childrenRows rows x.message_uuid).map
            ((fun t => (flattenNode t).count x) ∘ buildNode rows f)).sum = 0 := by
          apply sum_map_zero
          intro m hm
          rcases hchild m hm with ⟨hmr, hattm, hpm⟩
          apply (ih m x hmr hx).2
          rintro ⟨k2, hk2, hd2⟩
          have hcyc := tdescN_top_extend hmr hpm hattm hd2
          rcases hroot x hx with ⟨n, hn⟩
          exact noCycleN hnd hn k2 hcyc
        rw [hzero]
        simp
      · have hrx : ¬ (r = x) := by
          intro he
          subst he
          rcases hroot r hr with ⟨n, hn⟩
          rw [hkk] at hdesc
          exact noCycleN hnd hn k2 hdesc
        have hmc : m ∈ childrenRows rows r.message_uuid :=
          childrenRows_mem.mpr ⟨hm, hattm, hpm⟩
        have hone : ((fun t => (flattenNode t).count x) ∘ buildNode rows f) m = 1 := by
          show (flattenNode (buildNode rows f m)).count x = 1
          exact (ih m x hm hx).1 ⟨k2, by omega, hdesc2⟩
        have hzero : ∀ m2 ∈ childrenRows rows r.message_uuid, m2 ≠ m →
            ((fun t => (flattenNode t).count x) ∘ buildNode rows f) m2 = 0 := by
          intro m2 hm2c hne2
          rcases hchild m2 hm2c with ⟨hm2r, hattm2, hpm2⟩
          show (flattenNode (buildNode rows f m2)).count x = 0
          apply (ih m2 x hm2r hx).2
          rintro ⟨k3, hk3, hd3⟩
          rcases hroot r hr with ⟨nr, hnr⟩
          have hrankm : TreeRootedN rows m.message_uuid (nr + 1) :=
            TreeRootedN.child m r.message_uuid nr hm hpm hattm hnr
          have hrankm2 : TreeRootedN rows m2.message_uuid (nr + 1) :=
            TreeRootedN.child m2 r.message_uuid nr hm2r hpm2 hattm2 hnr
          have hrx1 := rank_of_desc hdesc2 hrankm
          have hrx2 := rank_of_desc hd3 hrankm2
          have hkeq : nr + 1 + k2 = nr + 1 + k3 := rootedN_unique hnd hrx1 hrx2
          have hk23 : k2 = k3 := by omega
          rw [← hk23] at hd3
          have := tdescN_inj hnd k2 _ _ _ hdesc2 hd3
          exact hne2 (ruuid_inj hnd hm2r hm this.symm)
        rw [sum_map_one (childrenRows_nodup hnd _) hmc hone hzero]
        simp [hrx]
    · intro hne
      have hrx : ¬ (r = x) := by
        intro he
        subst he
        exact hne ⟨0, by omega, TDescN.refl r.message_uuid⟩
      have hzero : ((childrenRows rows r.message_uuid).map
          ((fun t => (flattenNode t).count x) ∘ buildNode rows f)).sum = 0 := by
        apply sum_map_zero
        intro m hm
        rcases hchild m hm with ⟨hmr, hattm, hpm⟩
        apply (ih m x hmr hx).2
        rintro ⟨k2, hk2, hd2⟩
        exact hne ⟨k2 + 1, by omega, tdescN_top_extend hmr hpm hattm hd2⟩
      rw [hzero]
      simp [hrx]

/-- C10: over rows with pairwise-distinct ids whose resolvable parent
references are acyclic (formalized: every attachment chain reaches a
row with a falsy or unresolvable parent), `_build_tree` places exactly
the rows with a null or unresolvable parent reference as roots, the
tree contains every row exactly once, every node's children list holds
exactly the rows naming it as parent (in row order), and a non-root row
occurs exactly once in its parent's children list. -/
theorem c10_build_tree (rows : List MsgRow)
    (hnd : (rowUuids rows).Nodup)
    (hroot : ∀ r ∈ rows, ∃ n, TreeRootedN rows r.message_uuid n) :
    ((build_tree rows).map TNode.row
      = rows.filter (fun r => !attachedB rows r)) ∧
    (flattenForest (build_tree rows)).Perm rows ∧
    (∀ x ∈ rows, (flattenForest (build_tree rows)).count x = 1) ∧
    (∀ r fuel, (buildNode rows (fuel + 1) r).children.map TNode.row
      = childrenRows rows r.message_uuid) ∧
    (∀ x ∈ rows, ∀ p ∈ rows, attachedB rows x = true →
      x.parent_uuid = some p.message_uuid →
      (childrenRows rows p.message_uuid).count x = 1) := by
  have hrowsnd : rows.Nodup := List.Nodup.of_map _ hnd
  have hrootsnd : (rows.filter (fun r => !attachedB rows r)).Nodup :=
    List.Nodup.filter _ hrowsnd
  have hcount1 : ∀ x ∈ rows, (flattenForest (build_tree rows)).count x = 1 := by
    intro x hx
    unfold build_tree
    rw [flattenForest_count, List.map_map]
    rcases hroot x hx with ⟨n, hn⟩
    rcases rootedN_to_desc hn with ⟨r0, hr0, hatt0, hdesc⟩
    have hbound : n < rows.length := rootedN_bound hnd hn
    have hr0mem : r0 ∈ rows.filter (fun r => !attachedB rows r) :=
      List.mem_filter.mpr ⟨hr0, by rw [hatt0]; rfl⟩
    have hone : ((fun t => (flattenNode t).count x) ∘
        buildNode rows rows.length) r0 = 1 := by
      show (flattenNode (buildNode rows rows.length r0)).count x = 1
      exact (count_subtree hnd hroot rows.length r0 x hr0 hx).1 ⟨n, by omega, hdesc⟩
    have hzero : ∀ r2 ∈ rows.filter (fun r => !attachedB rows r), r2 ≠ r0 →
        ((fun t => (flattenNode t).count x) ∘ buildNode rows rows.length) r2 = 0 := by
      intro r2 hr2f hne2
      rcases List.mem_filter.mp hr2f with ⟨hr2, hatt2b⟩
      have hatt2 : attachedB rows r2 = false := by
        cases h2 : attachedB rows r2
        · rfl
        · rw [h2] at hatt2b
          exact absurd hatt2b (by simp)
      show (flattenNode (buildNode rows rows.length r2)).count x = 0
      apply (count_subtree hnd hroot rows.length r2 x hr2 hx).2
      rintro ⟨k2, hk2, hd2⟩
      have hrank0 : TreeRootedN rows r0.message_uuid 0 :=
        TreeRootedN.root r0 hr0 hatt0
      have hrank2 : TreeRootedN rows r2.message_uuid 0 :=
        TreeRootedN.root r2 hr2 hatt2
      have hx1 := rank_of_desc hdesc hrank0
      have hx2 := rank_of_desc hd2 hrank2
      have hnk : 0 + n = 0 + k2 := rootedN_unique hnd hx1 hx2
      have hnk2 : n = k2 := by omega
      rw [← hnk2] at hd2
      have heq := tdescN_inj hnd n _ _ _ hdesc hd2
      exact hne2 (ruuid_inj hnd hr2 hr0 heq.symm)
    exact sum_map_one hrootsnd hr0mem hone hzero
  refine ⟨?_, ?_, hcount1, ?_, ?_⟩
  · unfold build_tree
    rw [List.map_map]
    have hcomp : TNode.row ∘ buildNode rows rows.length = id := by
      funext m
      exact buildNode_row rows rows.length m
    rw [hcomp, List.map_id]
  · rw [List.perm_iff_count]
    intro a
    by_cases ha : a ∈ rows
    · rw [hcount1 a ha, List.count_eq_one_of_mem hrowsnd ha]
    · have h1 : (flattenForest (build_tree rows)).count a = 0 := by
        rw [List.count_eq_zero]
        intro hmem
        rcases flattenForest_mem hmem with ⟨t, ht, hat⟩
        rcases List.mem_map.mp ht with ⟨r2, hr2f, hrt⟩
        rw [← hrt] at hat
        exact ha (flattenNode_subset rows.length r2
          (List.mem_of_mem_filter hr2f) a hat)
      rw [h1, List.count_eq_zero.mpr ha]
  · intro r fuel
    exact buildNode_children rows fuel r
  · intro x hx p hp hatt hpar
    exact List.count_eq_one_of_mem (childrenRows_nodup hnd _)
      (childrenRows_mem.mpr ⟨hx, hatt, hpar⟩)

/-- A minimal row for the C10 witness. -/
def tRow (u : String) (p : Option String) : MsgRow :=
  { message_uuid := u, session_id := "S", parent_uuid := p,
    is_sidechain := false, depth := 0, timestamp := none,
    message_type := "user", project_path := "p", conversation_file := "f",
    summary := "", full_content := "" }

/-- A three-row chain for the C10 witness: root `A`, child `B`,
grandchild `C`. -/
def rowsC10 : List MsgRow :=
  [tRow "A" none, tRow "B" (some "A"), tRow "C" (some "B")]

/-- Every row of the witness chain is rooted. -/
theorem rootedC10 : ∀ r ∈ rowsC10, ∃ n, TreeRootedN rowsC10 r.message_uuid n := by
  intro r hr
  have hA : TreeRootedN rowsC10 (tRow "A" none).message_uuid 0 :=
    TreeRootedN.root (tRow "A" none) (by decide) (by decide)
  have hB : TreeRootedN rowsC10 (tRow "B" (some "A")).message_uuid 1 :=
    TreeRootedN.child (tRow "B" (some "A")) "A" 0 (by decide) rfl (by decide) hA
  have hC : TreeRootedN rowsC10 (tRow "C" (some "B")).message_uuid 2 :=
    TreeRootedN.child (tRow "C" (some "B")) "B" 1 (by decide) rfl (by decide) hB
  rcases List.mem_cons.mp hr with rfl | hr2
  · exact ⟨0, hA⟩
  rcases List.mem_cons.mp hr2 with rfl | hr3
  · exact ⟨1, hB⟩
  rcases List.mem_cons.mp hr3 with rfl | hr4
  · exact ⟨2, hC⟩
  exact absurd hr4 (List.not_mem_nil r)

/-- Witness for C10: the three-row chain rebuilds with exactly a root
`A` and every row appearing exactly once. -/
theorem c10_build_tree_witness :
    ((build_tree rowsC10).map TNode.row
      = rowsC10.filter (fun r => !attachedB rowsC10 r)) ∧
    (flattenForest (build_tree rowsC10)).Perm rowsC10 :=
  ⟨(c10_build_tree rowsC10 (by decide) rootedC10).1,
   (c10_build_tree rowsC10 (by decide) rootedC10).2.1⟩

/-- Witness for C9: two changes at times 0 and 10, then ticks at 20 (too
early) and 45 (idle satisfied): exactly one pass, pending emptied, the
quiet period measured from time 10. -/
theorem c9_debounce_witness :
    ([WEvent.change "f1" 0, WEvent.change "f2" 10].any isChange = true) ∧
    (withinWindow ⟨[], 0, 0⟩ [WEvent.change "f1" 0, WEvent.change "f2" 10] = true) ∧
    (([WEvent.tick 20, WEvent.tick 45] : List WEvent).all isTick = true) ∧
    (wrun ⟨[], 0, 0⟩ ([WEvent.change "f1" 0, WEvent.change "f2" 10] ++
      [WEvent.tick 20, WEvent.tick 45])).passes =
      0 + (if ([WEvent.tick 20, WEvent.tick 45] : List WEvent).any
        (fun e => match e with
          | .tick t => decide
              ((wrun ⟨[], 0, 0⟩ [WEvent.change "f1" 0,
                WEvent.change "f2" 10]).last_change_time + idle_threshold ≤ t)
          | _ => false) then 1 else 0) :=
  ⟨by decide, by decide, by decide,
   (c9_debounce ⟨[], 0, 0⟩ [WEvent.change "f1" 0, WEvent.change "f2" 10]
      [WEvent.tick 20, WEvent.tick 45] (by decide) (by decide)
      (by decide)).2.2.1⟩

end CCFinder
